import Mathlib

/-!
# A verification of `tools/block_cache_analyzer/block_cache_pysim.py`

This file is a shallow embedding, in Lean 4, of the block-cache
replacement-policy simulator `block_cache_pysim.py`, together with proofs
about it.  Every definition is translated from the Python source (file and
line references are given in the doc comments); the handful of places where
the translation makes a modelling choice are flagged explicitly:

* The source uses Python-2 semantics (`__cmp__` entry ordering,
  `sorted(cmp=...)`, integer `/` as floor division); integer division is
  therefore modelled with `Int.fdiv` and comparator-based sorting with a
  stable insertion sort, which agrees with CPython's stable sort for
  consistent comparators and on two-element lists.
* Python exceptions and failing `assert` statements are modelled by
  returning `none`; a successful run of an operation corresponds to a
  `some` result.
* `while` loops whose termination depends on run-time state take an
  explicit fuel argument (chosen at the call site large enough in practice);
  fuel exhaustion also yields `none`.
* Sources of randomness (`random.randint` starting index of a sample,
  the Thompson/LinUCB choice of a sub-policy) are passed in as explicit
  oracle arguments; theorems quantify over all oracle values.
-/

namespace BlockCachePySim

set_option linter.unusedVariables false

/-- Python 2 integer division (`/` on ints) is floor division. -/
def pydiv (a b : Int) : Int := Int.fdiv a b

/-- `kMicrosInSecond` constant (line 16). -/
def kMicrosInSecond : Int := 1000000

/-- `kSampleSize` constant (line 15). -/
def kSampleSize : Nat := 64

/-!
## Association-list model of Python `dict`

A plain Python `dict` is modelled as an association list with unique keys;
`dictSet` overwrites in place, `dictDel` removes the unique binding.
(Iteration order of plain dicts is never observed by the simulator; only
the `OrderedDict` inside `Deque` is order-sensitive, and it is modelled
separately.)
-/

def dictGet {κ α : Type _} [DecidableEq κ] : List (κ × α) → κ → Option α
  | [], _ => none
  | (k', v) :: rest, k => if k' = k then some v else dictGet rest k

def dictSet {κ α : Type _} [DecidableEq κ] : List (κ × α) → κ → α → List (κ × α)
  | [], k, v => [(k, v)]
  | (k', v') :: rest, k, v =>
    if k' = k then (k, v) :: rest else (k', v') :: dictSet rest k v

def dictDel {κ α : Type _} [DecidableEq κ] : List (κ × α) → κ → List (κ × α)
  | [], _ => []
  | (k', v') :: rest, k => if k' = k then rest else (k', v') :: dictDel rest k

theorem dictGet_dictSet {κ α : Type _} [DecidableEq κ] (m : List (κ × α)) (k k' : κ) (v : α) :
    dictGet (dictSet m k v) k' = if k = k' then some v else dictGet m k' := by
  induction m with
  | nil => simp [dictSet, dictGet]
  | cons p rest ih =>
    obtain ⟨k₀, v₀⟩ := p
    by_cases h0 : k₀ = k
    · simp only [dictSet, if_pos h0, dictGet]
      by_cases h1 : k = k'
      · rw [if_pos h1, if_pos h1]
      · have h2 : ¬k₀ = k' := by rw [h0]; exact h1
        rw [if_neg h1, if_neg h1, if_neg h2]
    · simp only [dictSet, if_neg h0, dictGet]
      by_cases h1 : k₀ = k'
      · have h2 : ¬k = k' := by rw [← h1]; exact fun hh => h0 hh.symm
        rw [if_pos h1, if_neg h2, if_pos h1]
      · rw [if_neg h1, ih, if_neg h1]

theorem dictGet_eq_none {κ α : Type _} [DecidableEq κ] {m : List (κ × α)} {k : κ}
    (h : k ∉ m.map Prod.fst) : dictGet m k = none := by
  induction m with
  | nil => rfl
  | cons p rest ih =>
    obtain ⟨k₀, v₀⟩ := p
    simp only [List.map_cons, List.mem_cons, not_or] at h
    simp only [dictGet, if_neg (fun hh : k₀ = k => h.1 hh.symm)]
    exact ih h.2

theorem dictGet_dictDel_ne {κ α : Type _} [DecidableEq κ] (m : List (κ × α)) {k k' : κ}
    (h : k ≠ k') : dictGet (dictDel m k) k' = dictGet m k' := by
  induction m with
  | nil => rfl
  | cons p rest ih =>
    obtain ⟨k₀, v₀⟩ := p
    by_cases h0 : k₀ = k
    · have h2 : ¬k₀ = k' := by rw [h0]; exact h
      simp only [dictDel, if_pos h0, dictGet, if_neg h2]
    · simp only [dictDel, if_neg h0, dictGet]
      by_cases h1 : k₀ = k'
      · rw [if_pos h1, if_pos h1]
      · rw [if_neg h1, if_neg h1, ih]

theorem dictGet_dictDel_self {κ α : Type _} [DecidableEq κ] (m : List (κ × α)) (k : κ)
    (hnd : (m.map Prod.fst).Nodup) : dictGet (dictDel m k) k = none := by
  induction m with
  | nil => rfl
  | cons p rest ih =>
    obtain ⟨k₀, v₀⟩ := p
    simp only [List.map_cons, List.nodup_cons] at hnd
    by_cases h0 : k₀ = k
    · simp only [dictDel, if_pos h0]
      exact dictGet_eq_none (fun hm => hnd.1 (by rw [h0]; exact hm))
    · simp only [dictDel, if_neg h0, dictGet, if_neg h0]
      exact ih hnd.2

theorem mem_keys_of_mem_keys_dictDel {κ α : Type _} [DecidableEq κ]
    {m : List (κ × α)} {k x : κ} (h : x ∈ (dictDel m k).map Prod.fst) :
    x ∈ m.map Prod.fst := by
  induction m with
  | nil => simp [dictDel] at h
  | cons p rest ih =>
    obtain ⟨k₀, v₀⟩ := p
    by_cases h0 : k₀ = k
    · simp only [dictDel, if_pos h0] at h
      simp only [List.map_cons, List.mem_cons]
      exact Or.inr h
    · simp only [dictDel, if_neg h0, List.map_cons, List.mem_cons] at h ⊢
      exact h.imp id ih

theorem keys_nodup_dictDel {κ α : Type _} [DecidableEq κ] (m : List (κ × α)) (k : κ)
    (hnd : (m.map Prod.fst).Nodup) : ((dictDel m k).map Prod.fst).Nodup := by
  induction m with
  | nil => exact hnd
  | cons p rest ih =>
    obtain ⟨k₀, v₀⟩ := p
    simp only [List.map_cons, List.nodup_cons] at hnd
    by_cases h0 : k₀ = k
    · simp only [dictDel, if_pos h0]
      exact hnd.2
    · simp only [dictDel, if_neg h0, List.map_cons, List.nodup_cons]
      exact ⟨fun hmem => hnd.1 (mem_keys_of_mem_keys_dictDel hmem), ih hnd.2⟩

theorem keys_dictSet {κ α : Type _} [DecidableEq κ] (m : List (κ × α)) (k : κ) (v : α) :
    (dictSet m k v).map Prod.fst =
      if k ∈ m.map Prod.fst then m.map Prod.fst else m.map Prod.fst ++ [k] := by
  induction m with
  | nil => simp [dictSet]
  | cons p rest ih =>
    obtain ⟨k₀, v₀⟩ := p
    by_cases h0 : k₀ = k
    · simp only [dictSet, if_pos h0, List.map_cons]
      rw [if_pos (by simp [← h0]), h0]
    · simp only [dictSet, if_neg h0, List.map_cons, ih]
      by_cases h1 : k ∈ rest.map Prod.fst
      · rw [if_pos h1, if_pos (by simp [h1])]
      · rw [if_neg h1,
          if_neg (by simp only [List.mem_cons]
                     exact fun hh => hh.elim (fun he => h0 he.symm) h1)]
        simp

theorem keys_nodup_dictSet {κ α : Type _} [DecidableEq κ] (m : List (κ × α)) (k : κ) (v : α)
    (hnd : (m.map Prod.fst).Nodup) : ((dictSet m k v).map Prod.fst).Nodup := by
  rw [keys_dictSet]
  by_cases h : k ∈ m.map Prod.fst
  · simpa [h] using hnd
  · simp only [if_neg h]
    exact List.Nodup.append hnd (List.nodup_singleton k)
      (by simpa [List.disjoint_singleton] using h)

/-!
## Data model: trace records and cache entries

`TraceRecord` (lines 21–66).  The fields `cf_name`, `fd` and `is_hit` are
omitted: they are consumed only by the trace-reading driver (`run`) and
never by any `Cache`.  `no_insert` is stored as the boolean that
`TraceRecord.__init__` computes from the 0/1 trace field.  Trace ids and
integer fields are non-negative per the trace format (spec section 6);
ids used as hash values are `Nat`, sizes and times are `Int`.
-/

structure TraceRecord where
  access_time : Int
  block_id : Nat
  block_type : Int
  block_size : Int
  cf_id : Int
  level : Int
  caller : Int
  no_insert : Bool
  get_id : Nat
  key_id : Nat
  kv_size : Int
  next_access_seq_no : Int
deriving Repr, DecidableEq

/-- `CacheEntry` (lines 69–82).  Note that `CacheEntry.__init__` ignores its
`cf_id` argument and stores `0`, and stores its single `time_s` argument in
both `last_access_time` and `insertion_time`. -/
structure CacheEntry where
  value_size : Int
  last_access_number : Int
  num_hits : Int
  cf_id : Int
  level : Int
  block_type : Int
  last_access_time : Int
  insertion_time : Int
deriving Repr, DecidableEq

/-- `CacheEntry.__init__` (lines 72–82), with the argument order of the
source; `num_hits` defaults to 0 at call sites that omit it. -/
def mkCacheEntry (value_size cf_id level block_type access_number time_s : Int)
    (num_hits : Int := 0) : CacheEntry :=
  { value_size := value_size
    last_access_number := access_number
    num_hits := num_hits
    cf_id := 0  -- the source assigns the literal 0, not the cf_id argument
    level := level
    block_type := block_type
    last_access_time := time_s
    insertion_time := time_s }

/-- `HashEntry` (lines 96–105). -/
structure HashEntry (V : Type) where
  key : String
  hash : Nat
  value : V
deriving Repr, DecidableEq

/-!
## `HashTable` (lines 108–265)

The table is a list of buckets; each bucket is a list of slots, a slot
being either an entry or a tombstone (`None`).  Python distinguishes an
absent bucket (`None`) from an empty bucket (`[]`); the two are observably
identical in every operation (`lookup`/`delete`/`random_sample` skip a
`None` bucket exactly as they skip an empty one, and `insert` materializes
`[]` before use), so a bucket is modelled as a plain slot list.
-/

abbrev Bucket (V : Type) := List (Option (HashEntry V))

structure HashTable (V : Type) where
  table : List (Bucket V)
  elements : Nat
deriving Repr, DecidableEq

/-- `HashTable.initial_size` (line 117). -/
def initialSize : Nat := 32

/-- `HashTable.__init__` (lines 116–119). -/
def HashTable.empty (V : Type) : HashTable V :=
  { table := List.replicate initialSize [], elements := 0 }

/-- First loop of `insert` (lines 177–183): replace the first live slot
whose entry matches `(key, hash)`; `none` if there is no such slot. -/
def bucketReplace {V : Type} [DecidableEq V] (key : String) (hash : Nat)
    (e : HashEntry V) : Bucket V → Option (Bucket V)
  | [] => none
  | none :: rest => (bucketReplace key hash e rest).map (none :: ·)
  | some x :: rest =>
    if x.hash = hash ∧ x.key = key then some (some e :: rest)
    else (bucketReplace key hash e rest).map (some x :: ·)

/-- Second loop of `insert` plus the append fallback (lines 185–192):
occupy the first tombstone slot, else append. -/
def bucketFill {V : Type} (e : HashEntry V) : Bucket V → Bucket V
  | [] => [some e]
  | none :: rest => some e :: rest
  | some x :: rest => some x :: bucketFill e rest

/-- Loop of `delete` (lines 233–243): tombstone the first matching slot,
returning the deleted entry. -/
def bucketDelete {V : Type} (key : String) (hash : Nat) :
    Bucket V → Option (HashEntry V × Bucket V)
  | [] => none
  | none :: rest => (bucketDelete key hash rest).map (fun p => (p.1, none :: p.2))
  | some x :: rest =>
    if x.hash = hash ∧ x.key = key then some (x, none :: rest)
    else (bucketDelete key hash rest).map (fun p => (p.1, some x :: p.2))

/-- Loop of `lookup` (lines 258–264). -/
def bucketLookup {V : Type} (key : String) (hash : Nat) : Bucket V → Option V
  | [] => none
  | none :: rest => bucketLookup key hash rest
  | some x :: rest =>
    if x.hash = hash ∧ x.key = key then some x.value
    else bucketLookup key hash rest

/-- One step of the copy loop of `resize` (lines 204–214): append the
entry to the bucket selected by `hash % new_size`. -/
def rehashStep {V : Type} (newSize : Nat) (tbl : List (Bucket V)) (e : HashEntry V) :
    List (Bucket V) :=
  tbl.set (e.hash % newSize) (tbl.getD (e.hash % newSize) [] ++ [some e])

/-- All live entries of the table, in bucket-then-slot order (the order in
which `resize` and `values` traverse them). -/
def HashTable.allLive {V : Type} (t : HashTable V) : List (HashEntry V) :=
  (t.table.map (fun b => b.filterMap id)).flatten

/-- `resize` (lines 195–219). -/
def HashTable.resize {V : Type} (t : HashTable V) (newSize : Nat) : HashTable V :=
  if newSize = t.table.length then t
  else if newSize < initialSize then t
  else if t.elements < 100 then t
  else { t with table := t.allLive.foldl (rehashStep newSize) (List.replicate newSize []) }

/-- `grow` (lines 221–225).  `int(len * 1.5)` on a float is exactly
`3 * len / 2` rounded toward zero for every list length arising here. -/
def HashTable.grow {V : Type} (t : HashTable V) : HashTable V :=
  if t.elements < 4 * t.table.length then t
  else t.resize (t.table.length * 3 / 2)

/-- `shrink` (lines 248–252).  `int(len * 0.7)` is modelled as
`len * 7 / 10`; binary-float rounding of `0.7` can shift this by one for
some lengths, which only changes the bucket count, never the contents. -/
def HashTable.shrink {V : Type} (t : HashTable V) : HashTable V :=
  if t.elements * 2 ≥ t.table.length then t
  else t.resize (t.table.length * 7 / 10)

/-- Body of `insert` after the initial `self.grow()` call (lines 172–193):
replace the existing `(key, hash)` entry if present (without touching the
element count), else fill a tombstone slot or append and count the new
element. -/
def insertCore {V : Type} [DecidableEq V] (t : HashTable V) (key : String)
    (hash : Nat) (value : V) : HashTable V :=
  let index := hash % t.table.length
  let bucket := t.table.getD index []
  match bucketReplace key hash ⟨key, hash, value⟩ bucket with
  | some b => { t with table := t.table.set index b }
  | none =>
    { t with
      table := t.table.set index (bucketFill ⟨key, hash, value⟩ bucket)
      elements := t.elements + 1 }

/-- `insert` (lines 166–193): `self.grow()` first, then the insertion body
on the grown table. -/
def HashTable.insert {V : Type} [DecidableEq V] (t : HashTable V) (key : String)
    (hash : Nat) (value : V) : HashTable V :=
  insertCore t.grow key hash value

/-- `delete` (lines 227–246). -/
def HashTable.delete {V : Type} (t : HashTable V) (key : String) (hash : Nat) :
    HashTable V × Option (HashEntry V) :=
  let index := hash % t.table.length
  let bucket := t.table.getD index []
  match bucketDelete key hash bucket with
  | none => (t, none)
  | some (d, b) =>
    (({ t with table := t.table.set index b, elements := t.elements - 1 }).shrink,
      some d)

/-- `lookup` (lines 254–265). -/
def HashTable.lookup {V : Type} (t : HashTable V) (key : String) (hash : Nat) :
    Option V :=
  bucketLookup key hash (t.table.getD (hash % t.table.length) [])

/-- `random_sample` (lines 121–141); the random starting bucket index is
the explicit argument `start`.  Starting there, live entries are collected
in scan order, wrapping around, until `sample_size` entries are found or
the scan has visited every bucket once. -/
def HashTable.random_sample {V : Type} (t : HashTable V) (sample_size : Nat)
    (start : Nat) : List (HashEntry V) :=
  let n := t.table.length
  (((List.range n).map (fun off => (t.table.getD ((start + off) % n) []).filterMap id)).flatten).take
    sample_size

/-!
## Correctness of `HashTable`

`kvMatch k h e` says the slot entry `e` answers a lookup of `(key, hash) =
(k, h)`; `kvDistinct` says two entries do not collide on `(hash, key)`.
-/

abbrev kvMatch {V : Type} (k : String) (h : Nat) (e : HashEntry V) : Prop :=
  e.hash = h ∧ e.key = k

abbrev kvDistinct {V : Type} (a b : HashEntry V) : Prop :=
  ¬(a.hash = b.hash ∧ a.key = b.key)

theorem kvDistinct_symm {V : Type} : Symmetric (kvDistinct (V := V)) := by
  intro a b hab hc
  exact hab ⟨hc.1.symm, hc.2.symm⟩

/-- Two entries matching the same query collide. -/
theorem not_kvDistinct_of_match {V : Type} {k : String} {h : Nat}
    {a b : HashEntry V} (ha : kvMatch k h a) (hb : kvMatch k h b) :
    ¬kvDistinct a b := fun hd => hd ⟨ha.1.trans hb.1.symm, ha.2.trans hb.2.symm⟩

/-- The live entries of a bucket. -/
def bucketLive {V : Type} (b : Bucket V) : List (HashEntry V) := b.filterMap id

@[simp] theorem bucketLive_nil {V : Type} : bucketLive ([] : Bucket V) = [] := rfl

@[simp] theorem bucketLive_cons_none {V : Type} (b : Bucket V) :
    bucketLive (none :: b) = bucketLive b := rfl

@[simp] theorem bucketLive_cons_some {V : Type} (e : HashEntry V) (b : Bucket V) :
    bucketLive (some e :: b) = e :: bucketLive b := rfl

theorem bucketLookup_eq_none_iff {V : Type} (k : String) (h : Nat) (b : Bucket V) :
    bucketLookup k h b = none ↔ ∀ e ∈ bucketLive b, ¬kvMatch k h e := by
  induction b with
  | nil => simp [bucketLookup]
  | cons slot rest ih =>
    cases slot with
    | none => simpa [bucketLookup] using ih
    | some x =>
      by_cases hx : x.hash = h ∧ x.key = k
      · rw [bucketLookup, if_pos hx]
        constructor
        · intro hcon
          exact absurd hcon (by simp)
        · intro hall
          exact absurd hx (hall x (by simp))
      · simp only [bucketLookup, if_neg hx, ih, bucketLive_cons_some, List.mem_cons]
        constructor
        · rintro hall e (rfl | he)
          · exact hx
          · exact hall e he
        · intro hall e he
          exact hall e (Or.inr he)

theorem bucketLookup_eq_some {V : Type} {k : String} {h : Nat} {b : Bucket V} {v : V}
    (hl : bucketLookup k h b = some v) :
    ∃ e ∈ bucketLive b, kvMatch k h e ∧ e.value = v := by
  induction b with
  | nil => simp [bucketLookup] at hl
  | cons slot rest ih =>
    cases slot with
    | none =>
      obtain ⟨e, he, hm, hv⟩ := ih hl
      exact ⟨e, by simpa using he, hm, hv⟩
    | some x =>
      by_cases hx : x.hash = h ∧ x.key = k
      · rw [bucketLookup, if_pos hx] at hl
        exact ⟨x, by simp, hx, by injection hl⟩
      · rw [bucketLookup, if_neg hx] at hl
        obtain ⟨e, he, hm, hv⟩ := ih hl
        exact ⟨e, by simp [he], hm, hv⟩

theorem bucketLookup_eq_some_of_mem {V : Type} {k : String} {h : Nat} {b : Bucket V}
    {e : HashEntry V} (hdist : (bucketLive b).Pairwise kvDistinct)
    (he : e ∈ bucketLive b) (hm : kvMatch k h e) :
    bucketLookup k h b = some e.value := by
  induction b with
  | nil => simp at he
  | cons slot rest ih =>
    cases slot with
    | none => exact ih hdist (by simpa using he)
    | some x =>
      rw [bucketLive_cons_some, List.pairwise_cons] at hdist
      rw [bucketLive_cons_some, List.mem_cons] at he
      by_cases hx : x.hash = h ∧ x.key = k
      · rw [bucketLookup, if_pos hx]
        rcases he with rfl | he
        · rfl
        · exact absurd (hdist.1 e he) (not_kvDistinct_of_match hx hm)
      · rw [bucketLookup, if_neg hx]
        rcases he with rfl | he
        · exact absurd hm hx
        · exact ih hdist.2 he

theorem bucketReplace_eq_none {V : Type} [DecidableEq V] {k : String} {h : Nat}
    {e : HashEntry V} {b : Bucket V} (hr : bucketReplace k h e b = none) :
    ∀ y ∈ bucketLive b, ¬kvMatch k h y := by
  induction b with
  | nil => simp
  | cons slot rest ih =>
    cases slot with
    | none =>
      rw [bucketReplace] at hr
      simpa using ih (by simpa using hr)
    | some x =>
      by_cases hx : x.hash = h ∧ x.key = k
      · rw [bucketReplace, if_pos hx] at hr
        exact absurd hr (by simp)
      · rw [bucketReplace, if_neg hx] at hr
        intro y hy
        rw [bucketLive_cons_some, List.mem_cons] at hy
        rcases hy with rfl | hy
        · exact hx
        · exact ih (by simpa using hr) y hy

theorem bucketReplace_eq_some {V : Type} [DecidableEq V] {k : String} {h : Nat}
    {e : HashEntry V} {b b' : Bucket V} (hr : bucketReplace k h e b = some b') :
    ∃ L x R, bucketLive b = L ++ x :: R ∧ bucketLive b' = L ++ e :: R ∧
      kvMatch k h x := by
  induction b generalizing b' with
  | nil => simp [bucketReplace] at hr
  | cons slot rest ih =>
    cases slot with
    | none =>
      rw [bucketReplace] at hr
      obtain ⟨b₀, hb₀, rfl⟩ := Option.map_eq_some'.mp hr
      obtain ⟨L, x, R, h1, h2, h3⟩ := ih hb₀
      exact ⟨L, x, R, by simpa using h1, by simpa using h2, h3⟩
    | some y =>
      by_cases hx : y.hash = h ∧ y.key = k
      · rw [bucketReplace, if_pos hx] at hr
        injection hr with hr
        exact ⟨[], y, bucketLive rest, by simp, by simp [← hr], hx⟩
      · rw [bucketReplace, if_neg hx] at hr
        obtain ⟨b₀, hb₀, rfl⟩ := Option.map_eq_some'.mp hr
        obtain ⟨L, x, R, h1, h2, h3⟩ := ih hb₀
        exact ⟨y :: L, x, R, by simp [h1], by simp [h2], h3⟩

theorem bucketFill_decomp {V : Type} (e : HashEntry V) (b : Bucket V) :
    ∃ L R, bucketLive b = L ++ R ∧ bucketLive (bucketFill e b) = L ++ e :: R := by
  induction b with
  | nil => exact ⟨[], [], rfl, rfl⟩
  | cons slot rest ih =>
    cases slot with
    | none => exact ⟨[], bucketLive rest, by simp, by simp [bucketFill]⟩
    | some x =>
      obtain ⟨L, R, h1, h2⟩ := ih
      exact ⟨x :: L, R, by simp [h1], by simp [bucketFill, h2]⟩

theorem bucketDelete_eq_none {V : Type} {k : String} {h : Nat} {b : Bucket V}
    (hd : bucketDelete k h b = none) : ∀ y ∈ bucketLive b, ¬kvMatch k h y := by
  induction b with
  | nil => simp
  | cons slot rest ih =>
    cases slot with
    | none =>
      rw [bucketDelete] at hd
      simpa using ih (by simpa using hd)
    | some x =>
      by_cases hx : x.hash = h ∧ x.key = k
      · rw [bucketDelete, if_pos hx] at hd
        exact absurd hd (by simp)
      · rw [bucketDelete, if_neg hx] at hd
        intro y hy
        rw [bucketLive_cons_some, List.mem_cons] at hy
        rcases hy with rfl | hy
        · exact hx
        · exact ih (by simpa using hd) y hy

theorem bucketDelete_eq_some {V : Type} {k : String} {h : Nat} {b b' : Bucket V}
    {d : HashEntry V} (hd : bucketDelete k h b = some (d, b')) :
    ∃ L R, bucketLive b = L ++ d :: R ∧ bucketLive b' = L ++ R ∧ kvMatch k h d := by
  induction b generalizing b' with
  | nil => simp [bucketDelete] at hd
  | cons slot rest ih =>
    cases slot with
    | none =>
      rw [bucketDelete] at hd
      obtain ⟨⟨d₀, b₀⟩, hb₀, heq⟩ := Option.map_eq_some'.mp hd
      injection heq with heq1 heq2
      subst heq1
      obtain ⟨L, R, h1, h2, h3⟩ := ih hb₀
      exact ⟨L, R, by simpa using h1, by simp [← heq2, h2], h3⟩
    | some x =>
      by_cases hx : x.hash = h ∧ x.key = k
      · rw [bucketDelete, if_pos hx] at hd
        injection hd with hd
        injection hd with h1 h2
        subst h1
        exact ⟨[], bucketLive rest, by simp, by simp [← h2], hx⟩
      · rw [bucketDelete, if_neg hx] at hd
        obtain ⟨⟨d₀, b₀⟩, hb₀, heq⟩ := Option.map_eq_some'.mp hd
        injection heq with heq1 heq2
        subst heq1
        obtain ⟨L, R, h1, h2, h3⟩ := ih hb₀
        exact ⟨x :: L, R, by simp [h1], by simp [← heq2, h2], h3⟩

/-- Live entries of a list of buckets, in traversal order. -/
def liveBuckets {V : Type} (T : List (Bucket V)) : List (HashEntry V) :=
  (T.map bucketLive).flatten

@[simp] theorem liveBuckets_nil {V : Type} : liveBuckets ([] : List (Bucket V)) = [] := rfl

@[simp] theorem liveBuckets_cons {V : Type} (b : Bucket V) (T : List (Bucket V)) :
    liveBuckets (b :: T) = bucketLive b ++ liveBuckets T := by
  simp [liveBuckets]

@[simp] theorem liveBuckets_append {V : Type} (T₁ T₂ : List (Bucket V)) :
    liveBuckets (T₁ ++ T₂) = liveBuckets T₁ ++ liveBuckets T₂ := by
  simp [liveBuckets]

theorem allLive_eq_liveBuckets {V : Type} (t : HashTable V) :
    t.allLive = liveBuckets t.table := rfl

@[simp] theorem liveBuckets_replicate_nil {V : Type} (n : Nat) :
    liveBuckets (List.replicate n ([] : Bucket V)) = [] := by
  induction n with
  | zero => rfl
  | succ n ih => simp [List.replicate_succ, ih]

/-- Decompose a bucket list at index `i`. -/
theorem table_decomp {V : Type} (T : List (Bucket V)) (i : Nat) (hi : i < T.length) :
    T = T.take i ++ T.getD i [] :: T.drop (i + 1) := by
  conv_lhs => rw [← List.take_append_drop i T]
  rw [List.drop_eq_getElem_cons hi, List.getD_eq_getElem?_getD,
    List.getElem?_eq_getElem hi]
  rfl

theorem set_decomp {V : Type} (T : List (Bucket V)) (i : Nat) (b' : Bucket V)
    (hi : i < T.length) : T.set i b' = T.take i ++ b' :: T.drop (i + 1) :=
  List.set_eq_take_cons_drop b' hi

theorem mem_liveBuckets {V : Type} {T : List (Bucket V)} {e : HashEntry V} :
    e ∈ liveBuckets T ↔ ∃ i, i < T.length ∧ e ∈ bucketLive (T.getD i []) := by
  rw [liveBuckets, List.mem_flatten]
  constructor
  · rintro ⟨l, hl, hel⟩
    rw [List.mem_map] at hl
    obtain ⟨b, hb, rfl⟩ := hl
    rw [List.mem_iff_getElem] at hb
    obtain ⟨i, hi, rfl⟩ := hb
    refine ⟨i, hi, ?_⟩
    rwa [List.getD_eq_getElem?_getD, List.getElem?_eq_getElem hi]
  · rintro ⟨i, hi, he⟩
    refine ⟨bucketLive (T.getD i []), List.mem_map_of_mem _ ?_, he⟩
    rw [List.getD_eq_getElem?_getD, List.getElem?_eq_getElem hi]
    exact List.getElem_mem hi

/-- Well-formedness of a `HashTable`: non-empty bucket list, every live
entry sits in the bucket selected by its hash, and no two live entries
share `(hash, key)`. -/
def HashTable.WF {V : Type} (t : HashTable V) : Prop :=
  0 < t.table.length ∧
  (∀ i ∈ List.range t.table.length,
      ∀ e ∈ bucketLive (t.table.getD i []), e.hash % t.table.length = i) ∧
  t.allLive.Pairwise kvDistinct

instance {V : Type} [DecidableEq V] (t : HashTable V) : Decidable t.WF := by
  unfold HashTable.WF
  infer_instance

theorem HashTable.WF.placed {V : Type} {t : HashTable V} (ht : t.WF) {i : Nat}
    (hi : i < t.table.length) {e : HashEntry V}
    (he : e ∈ bucketLive (t.table.getD i [])) : e.hash % t.table.length = i :=
  ht.2.1 i (List.mem_range.mpr hi) e he

theorem mem_allLive_iff {V : Type} {t : HashTable V} (ht : t.WF) {e : HashEntry V} :
    e ∈ t.allLive ↔ e ∈ bucketLive (t.table.getD (e.hash % t.table.length) []) := by
  rw [allLive_eq_liveBuckets, mem_liveBuckets]
  constructor
  · rintro ⟨i, hi, he⟩
    have hpl := ht.placed hi he
    subst hpl
    exact he
  · intro he
    exact ⟨e.hash % t.table.length, Nat.mod_lt _ ht.1, he⟩

theorem pairwise_bucket {V : Type} {t : HashTable V} (ht : t.WF) {i : Nat}
    (hi : i < t.table.length) : (bucketLive (t.table.getD i [])).Pairwise kvDistinct := by
  refine ht.2.2.sublist ?_
  rw [allLive_eq_liveBuckets, liveBuckets]
  refine List.sublist_flatten_of_mem (List.mem_map_of_mem _ ?_)
  rw [List.getD_eq_getElem?_getD, List.getElem?_eq_getElem hi]
  exact List.getElem_mem hi

theorem lookup_eq_some_iff {V : Type} {t : HashTable V} (ht : t.WF)
    {k : String} {h : Nat} {v : V} :
    t.lookup k h = some v ↔ ∃ e ∈ t.allLive, kvMatch k h e ∧ e.value = v := by
  have hi : h % t.table.length < t.table.length := Nat.mod_lt _ ht.1
  constructor
  · intro hl
    obtain ⟨e, he, hm, hv⟩ := bucketLookup_eq_some hl
    refine ⟨e, ?_, hm, hv⟩
    rw [mem_allLive_iff ht, hm.1]
    exact he
  · rintro ⟨e, he, hm, rfl⟩
    rw [mem_allLive_iff ht, hm.1] at he
    exact bucketLookup_eq_some_of_mem (by rw [← hm.1] at hi ⊢; exact pairwise_bucket ht hi)
      he hm

theorem lookup_eq_none_iff {V : Type} {t : HashTable V} (ht : t.WF)
    {k : String} {h : Nat} :
    t.lookup k h = none ↔ ∀ e ∈ t.allLive, ¬kvMatch k h e := by
  rw [HashTable.lookup, bucketLookup_eq_none_iff]
  constructor
  · intro hall e he hm
    rw [mem_allLive_iff ht, hm.1] at he
    exact hall e he hm
  · intro hall e he hm
    refine hall e ?_ hm
    rw [mem_allLive_iff ht, hm.1]
    exact he

/-- Lookups agree between two well-formed tables whose live entries agree
up to permutation. -/
theorem lookup_eq_of_perm {V : Type} {t t' : HashTable V} (ht : t.WF) (ht' : t'.WF)
    (hp : List.Perm t'.allLive t.allLive) (k : String) (h : Nat) :
    t'.lookup k h = t.lookup k h := by
  cases hl : t.lookup k h with
  | some v =>
    obtain ⟨e, he, hm, hv⟩ := (lookup_eq_some_iff ht).mp hl
    exact (lookup_eq_some_iff ht').mpr ⟨e, hp.mem_iff.mpr he, hm, hv⟩
  | none =>
    refine (lookup_eq_none_iff ht').mpr fun e he hm => ?_
    exact (lookup_eq_none_iff ht).mp hl e (hp.mem_iff.mp he) hm

theorem kvDistinct_symm' {V : Type} {a b : HashEntry V} (h : kvDistinct a b) :
    kvDistinct b a := kvDistinct_symm h

/-- Replacing the middle entry by one with the same `(hash, key)` preserves
pairwise distinctness. -/
theorem pairwise_replace_middle {V : Type} {a b : HashEntry V}
    (hab : a.hash = b.hash ∧ a.key = b.key) {L R : List (HashEntry V)}
    (hp : (L ++ a :: R).Pairwise kvDistinct) : (L ++ b :: R).Pairwise kvDistinct := by
  rw [List.pairwise_middle kvDistinct_symm'] at hp ⊢
  rw [List.pairwise_cons] at hp ⊢
  refine ⟨fun y hy hc => hp.1 y hy ⟨hab.1.trans hc.1, hab.2.trans hc.2⟩, hp.2⟩

theorem pairwise_insert_middle {V : Type} {b : HashEntry V} {L R : List (HashEntry V)}
    (hp : (L ++ R).Pairwise kvDistinct) (hb : ∀ y ∈ L ++ R, kvDistinct b y) :
    (L ++ b :: R).Pairwise kvDistinct := by
  rw [List.pairwise_middle kvDistinct_symm', List.pairwise_cons]
  exact ⟨hb, hp⟩

theorem pairwise_remove_middle {V : Type} {a : HashEntry V} {L R : List (HashEntry V)}
    (hp : (L ++ a :: R).Pairwise kvDistinct) : (L ++ R).Pairwise kvDistinct := by
  rw [List.pairwise_middle kvDistinct_symm', List.pairwise_cons] at hp
  exact hp.2

@[simp] theorem bucketLive_append {V : Type} (b₁ b₂ : Bucket V) :
    bucketLive (b₁ ++ b₂) = bucketLive b₁ ++ bucketLive b₂ := by
  simp [bucketLive]

/-- Invariants of the copy loop of `resize`: folding the live entries into
a fresh bucket list of length `n` preserves length, places each entry in
its hash bucket, and accumulates exactly the folded entries. -/
theorem rehash_fold {V : Type} (n : Nat) (hn : 0 < n) (es : List (HashEntry V)) :
    ∀ A : List (Bucket V), A.length = n →
      (∀ i < n, ∀ e ∈ bucketLive (A.getD i []), e.hash % n = i) →
      (es.foldl (rehashStep n) A).length = n ∧
      (∀ i < n, ∀ e ∈ bucketLive ((es.foldl (rehashStep n) A).getD i []),
        e.hash % n = i) ∧
      List.Perm (liveBuckets (es.foldl (rehashStep n) A)) (liveBuckets A ++ es) := by
  induction es with
  | nil =>
    intro A hlen hplaced
    exact ⟨hlen, hplaced, by simp⟩
  | cons e es ih =>
    intro A hlen hplaced
    rw [List.foldl_cons]
    have hi₀ : e.hash % n < n := Nat.mod_lt _ hn
    have hi₀' : e.hash % n < A.length := by rw [hlen]; exact hi₀
    have hlen' : (rehashStep n A e).length = n := by
      rw [rehashStep, List.length_set, hlen]
    have hget_ne : ∀ j, j ≠ e.hash % n → (rehashStep n A e).getD j [] = A.getD j [] := by
      intro j hj
      rw [rehashStep, List.getD_eq_getElem?_getD,
        List.getElem?_set_ne (fun hh => hj hh.symm), ← List.getD_eq_getElem?_getD]
    have hget_eq : (rehashStep n A e).getD (e.hash % n) [] =
        A.getD (e.hash % n) [] ++ [some e] := by
      rw [rehashStep, List.getD_eq_getElem?_getD, List.getElem?_set_self hi₀']
      rfl
    have hplaced' : ∀ i < n, ∀ e' ∈ bucketLive ((rehashStep n A e).getD i []),
        e'.hash % n = i := by
      intro i hi e' he'
      by_cases hii : i = e.hash % n
      · subst hii
        rw [hget_eq, bucketLive_append] at he'
        rcases List.mem_append.mp he' with he' | he'
        · exact hplaced _ hi e' he'
        · simp only [bucketLive, List.filterMap_cons, List.filterMap_nil] at he'
          simp only [id, List.mem_singleton] at he'
          subst he'
          rfl
      · rw [hget_ne i hii] at he'
        exact hplaced i hi e' he'
    have hperm' : List.Perm (liveBuckets (rehashStep n A e)) (liveBuckets A ++ [e]) := by
      have h1 : liveBuckets (rehashStep n A e) =
          liveBuckets (A.take (e.hash % n)) ++
            (bucketLive (A.getD (e.hash % n) []) ++ [e]) ++
            liveBuckets (A.drop (e.hash % n + 1)) := by
        rw [rehashStep, set_decomp _ _ _ hi₀']
        simp [bucketLive]
      have h2 : liveBuckets A =
          liveBuckets (A.take (e.hash % n)) ++
            bucketLive (A.getD (e.hash % n) []) ++
            liveBuckets (A.drop (e.hash % n + 1)) := by
        conv_lhs => rw [table_decomp A (e.hash % n) hi₀']
        simp
      rw [h1, h2]
      rw [show liveBuckets (A.take (e.hash % n)) ++
            (bucketLive (A.getD (e.hash % n) []) ++ [e]) ++
            liveBuckets (A.drop (e.hash % n + 1)) =
          liveBuckets (A.take (e.hash % n)) ++ bucketLive (A.getD (e.hash % n) []) ++
            ([e] ++ liveBuckets (A.drop (e.hash % n + 1))) from by
          simp [List.append_assoc]]
      rw [show liveBuckets (A.take (e.hash % n)) ++ bucketLive (A.getD (e.hash % n) []) ++
            liveBuckets (A.drop (e.hash % n + 1)) ++ [e] =
          liveBuckets (A.take (e.hash % n)) ++ bucketLive (A.getD (e.hash % n) []) ++
            (liveBuckets (A.drop (e.hash % n + 1)) ++ [e]) from by
          simp [List.append_assoc]]
      exact List.Perm.append_left _ List.perm_append_comm
    obtain ⟨l1, l2, l3⟩ := ih (rehashStep n A e) hlen' hplaced'
    refine ⟨l1, l2, l3.trans ?_⟩
    rw [show liveBuckets A ++ (e :: es) = liveBuckets A ++ [e] ++ es from by simp]
    exact List.Perm.append_right es hperm' 

theorem resize_ok {V : Type} (t : HashTable V) (n : Nat) (ht : t.WF) :
    (t.resize n).WF ∧ List.Perm (t.resize n).allLive t.allLive ∧
      (∀ k h, (t.resize n).lookup k h = t.lookup k h) ∧
      (t.resize n).elements = t.elements := by
  rw [HashTable.resize]
  by_cases h1 : n = t.table.length
  · rw [if_pos h1]
    exact ⟨ht, .refl _, fun _ _ => rfl, rfl⟩
  rw [if_neg h1]
  by_cases h2 : n < initialSize
  · rw [if_pos h2]
    exact ⟨ht, .refl _, fun _ _ => rfl, rfl⟩
  rw [if_neg h2]
  by_cases h3 : t.elements < 100
  · rw [if_pos h3]
    exact ⟨ht, .refl _, fun _ _ => rfl, rfl⟩
  rw [if_neg h3]
  have hn : 0 < n := by
    have h32 : (32 : Nat) ≤ n := by simpa [initialSize] using le_of_not_lt h2
    omega
  obtain ⟨l1, l2, l3⟩ := rehash_fold n hn t.allLive (List.replicate n [])
    (by simp)
    (by intro i hi e he; simp at he)
  rw [liveBuckets_replicate_nil, List.nil_append] at l3
  have hwf : HashTable.WF
      { t with table := t.allLive.foldl (rehashStep n) (List.replicate n []) } := by
    refine ⟨by simpa [l1] using hn, ?_, ?_⟩
    · intro i hi e he
      simp only at he ⊢
      rw [l1] at hi ⊢
      exact l2 i (List.mem_range.mp hi) e he
    · have : List.Perm
          (HashTable.allLive { t with table := t.allLive.foldl (rehashStep n) (List.replicate n []) })
          t.allLive := l3
      exact (this.pairwise_iff (fun hab => kvDistinct_symm' hab)).mpr ht.2.2
  exact ⟨hwf, l3, lookup_eq_of_perm ht hwf l3, rfl⟩

theorem grow_ok {V : Type} (t : HashTable V) (ht : t.WF) :
    t.grow.WF ∧ List.Perm t.grow.allLive t.allLive ∧
      (∀ k h, t.grow.lookup k h = t.lookup k h) ∧ t.grow.elements = t.elements := by
  rw [HashTable.grow]
  by_cases h : t.elements < 4 * t.table.length
  · rw [if_pos h]
    exact ⟨ht, .refl _, fun _ _ => rfl, rfl⟩
  · rw [if_neg h]
    exact resize_ok t _ ht

theorem shrink_ok {V : Type} (t : HashTable V) (ht : t.WF) :
    t.shrink.WF ∧ List.Perm t.shrink.allLive t.allLive ∧
      (∀ k h, t.shrink.lookup k h = t.lookup k h) ∧ t.shrink.elements = t.elements := by
  rw [HashTable.shrink]
  by_cases h : t.elements * 2 ≥ t.table.length
  · rw [if_pos h]
    exact ⟨ht, .refl _, fun _ _ => rfl, rfl⟩
  · rw [if_neg h]
    exact resize_ok t _ ht

theorem allLive_decomp {V : Type} (t : HashTable V) {i₀ : Nat}
    (hi₀ : i₀ < t.table.length) :
    t.allLive = liveBuckets (t.table.take i₀) ++ bucketLive (t.table.getD i₀ []) ++
      liveBuckets (t.table.drop (i₀ + 1)) := by
  rw [allLive_eq_liveBuckets]
  conv_lhs => rw [table_decomp t.table i₀ hi₀]
  simp [List.append_assoc]

theorem allLive_set {V : Type} (t : HashTable V) {i₀ : Nat}
    (hi₀ : i₀ < t.table.length) (b' : Bucket V) (m : Nat) :
    (HashTable.mk (t.table.set i₀ b') m).allLive =
      liveBuckets (t.table.take i₀) ++ bucketLive b' ++
        liveBuckets (t.table.drop (i₀ + 1)) := by
  rw [allLive_eq_liveBuckets]
  show liveBuckets (t.table.set i₀ b') = _
  rw [set_decomp t.table i₀ b' hi₀]
  simp [List.append_assoc]

/-- Replacing bucket `i₀` preserves well-formedness provided the new bucket
contains only entries that were already there or whose hash selects `i₀`,
and the resulting flat entry list is pairwise distinct. -/
theorem set_bucket_wf {V : Type} {t : HashTable V} (ht : t.WF) {i₀ : Nat}
    (hi₀ : i₀ < t.table.length) {b' : Bucket V}
    (hsub : ∀ e ∈ bucketLive b',
      e ∈ bucketLive (t.table.getD i₀ []) ∨ e.hash % t.table.length = i₀)
    (hpw : (liveBuckets (t.table.take i₀) ++ bucketLive b' ++
      liveBuckets (t.table.drop (i₀ + 1))).Pairwise kvDistinct) (m : Nat) :
    (HashTable.mk (t.table.set i₀ b') m).WF := by
  have hgetD_eq : (t.table.set i₀ b').getD i₀ [] = b' := by
    rw [List.getD_eq_getElem?_getD, List.getElem?_set_self hi₀]
    rfl
  have hgetD_ne : ∀ i, i ≠ i₀ → (t.table.set i₀ b').getD i [] = t.table.getD i [] := by
    intro i hii
    rw [List.getD_eq_getElem?_getD, List.getElem?_set_ne (fun hh : i₀ = i => hii hh.symm),
      ← List.getD_eq_getElem?_getD]
  refine ⟨?_, ?_, ?_⟩
  · show 0 < (t.table.set i₀ b').length
    rw [List.length_set]
    exact ht.1
  · intro i hi e he
    show e.hash % (t.table.set i₀ b').length = i
    simp only [List.length_set, List.mem_range] at hi ⊢
    by_cases hii : i = i₀
    · subst hii
      rw [hgetD_eq] at he
      rcases hsub e he with hold | hnew
      · exact ht.placed hi₀ hold
      · exact hnew
    · rw [hgetD_ne i hii] at he
      exact ht.placed hi he
  · show (HashTable.mk (t.table.set i₀ b') m).allLive.Pairwise kvDistinct
    rw [allLive_set t hi₀ b' m]
    exact hpw

/-- Lookups agree between two well-formed tables with the same matching
entries. -/
theorem lookup_congr {V : Type} {t t' : HashTable V} (ht : t.WF) (ht' : t'.WF)
    {k : String} {h : Nat}
    (hiff : ∀ w, (∃ e ∈ t'.allLive, kvMatch k h e ∧ e.value = w) ↔
      (∃ e ∈ t.allLive, kvMatch k h e ∧ e.value = w)) :
    t'.lookup k h = t.lookup k h := by
  cases hl : t.lookup k h with
  | some w => exact (lookup_eq_some_iff ht').mpr ((hiff w).mpr ((lookup_eq_some_iff ht).mp hl))
  | none =>
    refine (lookup_eq_none_iff ht').mpr fun e he hm => ?_
    obtain ⟨e', he', hm', _⟩ := (hiff e.value).mp ⟨e, he, hm, rfl⟩
    exact (lookup_eq_none_iff ht).mp hl e' he' hm'

theorem insertCore_ok {V : Type} [DecidableEq V] (t : HashTable V) (k : String)
    (h : Nat) (v : V) (ht : t.WF) :
    (insertCore t k h v).WF ∧
      ∀ k' h', (insertCore t k h v).lookup k' h' =
        if h' = h ∧ k' = k then some v else t.lookup k' h' := by
  have hi₀ : h % t.table.length < t.table.length := Nat.mod_lt _ ht.1
  have hall := allLive_decomp t hi₀
  simp only [insertCore]
  cases hr : bucketReplace k h ⟨k, h, v⟩ (t.table.getD (h % t.table.length) []) with
  | some b' =>
    obtain ⟨L, x, R, hLb, hLb', hxm⟩ := bucketReplace_eq_some hr
    have hallt : t.allLive =
        (liveBuckets (t.table.take (h % t.table.length)) ++ L) ++ x ::
          (R ++ liveBuckets (t.table.drop (h % t.table.length + 1))) := by
      rw [hall, hLb]
      simp [List.append_assoc]
    have hpw' : (liveBuckets (t.table.take (h % t.table.length)) ++ bucketLive b' ++
        liveBuckets (t.table.drop (h % t.table.length + 1))).Pairwise kvDistinct := by
      rw [hLb', show liveBuckets (t.table.take (h % t.table.length)) ++
          (L ++ (⟨k, h, v⟩ : HashEntry V) :: R) ++
          liveBuckets (t.table.drop (h % t.table.length + 1)) =
        (liveBuckets (t.table.take (h % t.table.length)) ++ L) ++ (⟨k, h, v⟩ : HashEntry V) ::
          (R ++ liveBuckets (t.table.drop (h % t.table.length + 1))) from by
        simp [List.append_assoc]]
      refine pairwise_replace_middle ⟨hxm.1, hxm.2⟩ ?_
      rw [← hallt]
      exact ht.2.2
    have hsub : ∀ e ∈ bucketLive b',
        e ∈ bucketLive (t.table.getD (h % t.table.length) []) ∨
          e.hash % t.table.length = h % t.table.length := by
      intro e he
      rw [hLb'] at he
      rcases List.mem_append.mp he with he | he
      · exact Or.inl (by rw [hLb]; simp [he])
      · rcases List.mem_cons.mp he with rfl | he
        · exact Or.inr rfl
        · exact Or.inl (by rw [hLb]; simp [he])
    have hwf' := set_bucket_wf ht hi₀ hsub hpw' t.elements
    refine ⟨hwf', fun k' h' => ?_⟩
    by_cases hq : h' = h ∧ k' = k
    · rw [if_pos hq]
      refine (lookup_eq_some_iff hwf').mpr ⟨⟨k, h, v⟩, ?_, ⟨hq.1.symm, hq.2.symm⟩, rfl⟩
      rw [allLive_set t hi₀ b' t.elements, hLb']
      simp
    · rw [if_neg hq]
      refine lookup_congr ht hwf' ?_
      intro w
      rw [allLive_set t hi₀ b' t.elements, hLb', hallt]
      constructor
      · rintro ⟨e, he, hm, hv⟩
        simp only [List.mem_append, List.mem_cons] at he
        rcases he with (he | (he | (rfl | he))) | he
        · exact ⟨e, by simp [he], hm, hv⟩
        · exact ⟨e, by simp [he], hm, hv⟩
        · exact absurd ⟨hm.1.symm, hm.2.symm⟩ hq
        · exact ⟨e, by simp [he], hm, hv⟩
        · exact ⟨e, by simp [he], hm, hv⟩
      · rintro ⟨e, he, hm, hv⟩
        simp only [List.mem_append, List.mem_cons] at he
        rcases he with (he | he) | (rfl | (he | he))
        · exact ⟨e, by simp [he], hm, hv⟩
        · exact ⟨e, by simp [he], hm, hv⟩
        · exact absurd ⟨by rw [← hm.1, hxm.1], by rw [← hm.2, hxm.2]⟩ hq
        · exact ⟨e, by simp [he], hm, hv⟩
        · exact ⟨e, by simp [he], hm, hv⟩
  | none =>
    obtain ⟨L, R, hLb, hLb'⟩ :=
      bucketFill_decomp (⟨k, h, v⟩ : HashEntry V) (t.table.getD (h % t.table.length) [])
    have hnom : ∀ e ∈ t.allLive, ¬kvMatch k h e := by
      intro e he hm
      have hmem := (mem_allLive_iff ht).mp he
      rw [hm.1] at hmem
      exact bucketReplace_eq_none hr e hmem hm
    have hallt : t.allLive =
        (liveBuckets (t.table.take (h % t.table.length)) ++ L) ++
          (R ++ liveBuckets (t.table.drop (h % t.table.length + 1))) := by
      rw [hall, hLb]
      simp [List.append_assoc]
    have hpw' : (liveBuckets (t.table.take (h % t.table.length)) ++
        bucketLive (bucketFill ⟨k, h, v⟩ (t.table.getD (h % t.table.length) [])) ++
        liveBuckets (t.table.drop (h % t.table.length + 1))).Pairwise kvDistinct := by
      rw [hLb', show liveBuckets (t.table.take (h % t.table.length)) ++
          (L ++ (⟨k, h, v⟩ : HashEntry V) :: R) ++
          liveBuckets (t.table.drop (h % t.table.length + 1)) =
        (liveBuckets (t.table.take (h % t.table.length)) ++ L) ++ (⟨k, h, v⟩ : HashEntry V) ::
          (R ++ liveBuckets (t.table.drop (h % t.table.length + 1))) from by
        simp [List.append_assoc]]
      refine pairwise_insert_middle ?_ ?_
      · rw [← hallt]
        exact ht.2.2
      · intro y hy hc
        exact hnom y (hallt ▸ hy) ⟨hc.1.symm, hc.2.symm⟩
    have hsub : ∀ e ∈ bucketLive (bucketFill (⟨k, h, v⟩ : HashEntry V)
        (t.table.getD (h % t.table.length) [])),
        e ∈ bucketLive (t.table.getD (h % t.table.length) []) ∨
          e.hash % t.table.length = h % t.table.length := by
      intro e he
      rw [hLb'] at he
      rcases List.mem_append.mp he with he | he
      · exact Or.inl (by rw [hLb]; simp [he])
      · rcases List.mem_cons.mp he with rfl | he
        · exact Or.inr rfl
        · exact Or.inl (by rw [hLb]; simp [he])
    have hwf' := set_bucket_wf ht hi₀ hsub hpw' (t.elements + 1)
    refine ⟨hwf', fun k' h' => ?_⟩
    by_cases hq : h' = h ∧ k' = k
    · rw [if_pos hq]
      refine (lookup_eq_some_iff hwf').mpr ⟨⟨k, h, v⟩, ?_, ⟨hq.1.symm, hq.2.symm⟩, rfl⟩
      rw [allLive_set t hi₀ _ (t.elements + 1), hLb']
      simp
    · rw [if_neg hq]
      refine lookup_congr ht hwf' ?_
      intro w
      rw [allLive_set t hi₀ _ (t.elements + 1), hLb', hallt]
      constructor
      · rintro ⟨e, he, hm, hv⟩
        simp only [List.mem_append, List.mem_cons] at he
        rcases he with (he | (he | (rfl | he))) | he
        · exact ⟨e, by simp [he], hm, hv⟩
        · exact ⟨e, by simp [he], hm, hv⟩
        · exact absurd ⟨hm.1.symm, hm.2.symm⟩ hq
        · exact ⟨e, by simp [he], hm, hv⟩
        · exact ⟨e, by simp [he], hm, hv⟩
      · rintro ⟨e, he, hm, hv⟩
        simp only [List.mem_append, List.mem_cons] at he
        rcases he with (he | he) | (he | he)
        · exact ⟨e, by simp [he], hm, hv⟩
        · exact ⟨e, by simp [he], hm, hv⟩
        · exact ⟨e, by simp [he], hm, hv⟩
        · exact ⟨e, by simp [he], hm, hv⟩

theorem hashInsert_ok {V : Type} [DecidableEq V] (t : HashTable V) (k : String)
    (h : Nat) (v : V) (ht : t.WF) :
    (t.insert k h v).WF ∧
      ∀ k' h', (t.insert k h v).lookup k' h' =
        if h' = h ∧ k' = k then some v else t.lookup k' h' := by
  obtain ⟨hwf₁, _, hlook₁, _⟩ := grow_ok t ht
  obtain ⟨hwf₂, hlook₂⟩ := insertCore_ok t.grow k h v hwf₁
  refine ⟨hwf₂, fun k' h' => ?_⟩
  rw [HashTable.insert, hlook₂ k' h', hlook₁ k' h']

theorem hashDelete_ok {V : Type} (t : HashTable V) (k : String) (h : Nat) (ht : t.WF) :
    (t.delete k h).1.WF ∧
      ∀ k' h', (t.delete k h).1.lookup k' h' =
        if h' = h ∧ k' = k then none else t.lookup k' h' := by
  have hi₀ : h % t.table.length < t.table.length := Nat.mod_lt _ ht.1
  have hall := allLive_decomp t hi₀
  simp only [HashTable.delete]
  cases hd : bucketDelete k h (t.table.getD (h % t.table.length) []) with
  | none =>
    refine ⟨ht, fun k' h' => ?_⟩
    by_cases hq : h' = h ∧ k' = k
    · rw [if_pos hq]
      refine (lookup_eq_none_iff ht).mpr fun e he hm => ?_
      have hmem := (mem_allLive_iff ht).mp he
      rw [hm.1, hq.1] at hmem
      exact bucketDelete_eq_none hd e hmem ⟨by rw [hm.1, hq.1], by rw [hm.2, hq.2]⟩
    · rw [if_neg hq]
  | some p =>
    obtain ⟨d, b'⟩ := p
    obtain ⟨L, R, hLb, hLb', hdm⟩ := bucketDelete_eq_some hd
    have hallt : t.allLive =
        (liveBuckets (t.table.take (h % t.table.length)) ++ L) ++ d ::
          (R ++ liveBuckets (t.table.drop (h % t.table.length + 1))) := by
      rw [hall, hLb]
      simp [List.append_assoc]
    have hpw' : (liveBuckets (t.table.take (h % t.table.length)) ++ bucketLive b' ++
        liveBuckets (t.table.drop (h % t.table.length + 1))).Pairwise kvDistinct := by
      rw [hLb', show liveBuckets (t.table.take (h % t.table.length)) ++ (L ++ R) ++
          liveBuckets (t.table.drop (h % t.table.length + 1)) =
        (liveBuckets (t.table.take (h % t.table.length)) ++ L) ++
          (R ++ liveBuckets (t.table.drop (h % t.table.length + 1))) from by
        simp [List.append_assoc]]
      exact pairwise_remove_middle (hallt ▸ ht.2.2)
    have hsub : ∀ e ∈ bucketLive b',
        e ∈ bucketLive (t.table.getD (h % t.table.length) []) ∨
          e.hash % t.table.length = h % t.table.length := by
      intro e he
      rw [hLb'] at he
      rcases List.mem_append.mp he with he | he
      · exact Or.inl (by rw [hLb]; simp [he])
      · exact Or.inl (by rw [hLb]; simp [he])
    have hwf₂ := set_bucket_wf ht hi₀ hsub hpw' (t.elements - 1)
    obtain ⟨hwfs, _, hlook_s, _⟩ := shrink_ok _ hwf₂
    refine ⟨hwfs, fun k' h' => ?_⟩
    rw [hlook_s k' h']
    by_cases hq : h' = h ∧ k' = k
    · rw [if_pos hq]
      refine (lookup_eq_none_iff hwf₂).mpr fun e he hm => ?_
      have hpt : ((liveBuckets (t.table.take (h % t.table.length)) ++ L) ++ d ::
          (R ++ liveBuckets (t.table.drop (h % t.table.length + 1)))).Pairwise kvDistinct :=
        hallt ▸ ht.2.2
      rw [List.pairwise_middle kvDistinct_symm', List.pairwise_cons] at hpt
      have he' : e ∈ (liveBuckets (t.table.take (h % t.table.length)) ++ L) ++
          (R ++ liveBuckets (t.table.drop (h % t.table.length + 1))) := by
        rw [allLive_set t hi₀ b' (t.elements - 1), hLb'] at he
        simp only [List.mem_append] at he ⊢
        tauto
      exact hpt.1 e he' ⟨by rw [hdm.1, hm.1, hq.1], by rw [hdm.2, hm.2, hq.2]⟩
    · rw [if_neg hq]
      refine lookup_congr ht hwf₂ ?_
      intro w
      rw [allLive_set t hi₀ b' (t.elements - 1), hLb', hallt]
      constructor
      · rintro ⟨e, he, hm, hv⟩
        simp only [List.mem_append, List.mem_cons] at he
        rcases he with (he | (he | he)) | he
        · exact ⟨e, by simp [he], hm, hv⟩
        · exact ⟨e, by simp [he], hm, hv⟩
        · exact ⟨e, by simp [he], hm, hv⟩
        · exact ⟨e, by simp [he], hm, hv⟩
      · rintro ⟨e, he, hm, hv⟩
        simp only [List.mem_append, List.mem_cons] at he
        rcases he with (he | he) | (rfl | (he | he))
        · exact ⟨e, by simp [he], hm, hv⟩
        · exact ⟨e, by simp [he], hm, hv⟩
        · exact absurd ⟨by rw [← hm.1, hdm.1], by rw [← hm.2, hdm.2]⟩ hq
        · exact ⟨e, by simp [he], hm, hv⟩
        · exact ⟨e, by simp [he], hm, hv⟩

/-!
## Round trip of the sampling hash table (C3)

`HOp` is an interleaving step on the table; `query` invokes `lookup`,
which never mutates (lines 254–265), so it leaves the state unchanged.
`specGet` is written from the spec's words, not from the code: the result
of `lookup (k, h)` is the value of the most recent `insert (k, h, v)`
unless a `delete (k, h)` occurred later, and absent otherwise.
-/

inductive HOp (V : Type) where
  | ins (key : String) (hash : Nat) (value : V)
  | del (key : String) (hash : Nat)
  | query (key : String) (hash : Nat)
deriving Repr

def applyHOp {V : Type} [DecidableEq V] (t : HashTable V) : HOp V → HashTable V
  | .ins k h v => t.insert k h v
  | .del k h => (t.delete k h).1
  | .query _ _ => t

def runHOps {V : Type} [DecidableEq V] (ops : List (HOp V)) : HashTable V :=
  ops.foldl applyHOp (HashTable.empty V)

/-- One step of the spec-side account of the table contents at `(k, h)`. -/
def specStep {V : Type} (k : String) (h : Nat) (acc : Option V) : HOp V → Option V
  | .ins k' h' v => if k' = k ∧ h' = h then some v else acc
  | .del k' h' => if k' = k ∧ h' = h then none else acc
  | .query _ _ => acc

/-- Modelled from the spec's words (section 8, property 6): the most recent
inserted value for `(k, h)`, absent if a later delete intervened or no
insert ever happened. -/
def specGet {V : Type} (ops : List (HOp V)) (k : String) (h : Nat) : Option V :=
  ops.foldl (specStep k h) none

theorem empty_wf {V : Type} : (HashTable.empty V).WF := by
  refine ⟨by simp [HashTable.empty, initialSize], ?_, ?_⟩
  · intro i hi e he
    have hb : (HashTable.empty V).table.getD i [] = [] := by
      show (List.replicate initialSize ([] : Bucket V)).getD i [] = []
      rw [List.getD_eq_getElem?_getD, List.getElem?_replicate]
      by_cases hlt : i < initialSize
      · rw [if_pos hlt]
        rfl
      · rw [if_neg hlt]
        rfl
    rw [hb] at he
    simp at he
  · rw [allLive_eq_liveBuckets]
    show (liveBuckets (List.replicate initialSize [])).Pairwise kvDistinct
    rw [liveBuckets_replicate_nil]
    exact List.Pairwise.nil

theorem empty_lookup {V : Type} (k : String) (h : Nat) :
    (HashTable.empty V).lookup k h = none := by
  refine (lookup_eq_none_iff empty_wf).mpr fun e he _ => ?_
  rw [allLive_eq_liveBuckets] at he
  revert he
  show e ∈ liveBuckets (List.replicate initialSize []) → False
  rw [liveBuckets_replicate_nil]
  simp

theorem foldl_applyHOp_ok {V : Type} [DecidableEq V] (ops : List (HOp V)) :
    ∀ t : HashTable V, t.WF →
      (ops.foldl applyHOp t).WF ∧
      ∀ k h, (ops.foldl applyHOp t).lookup k h =
        ops.foldl (specStep k h) (t.lookup k h) := by
  induction ops with
  | nil => exact fun t ht => ⟨ht, fun _ _ => rfl⟩
  | cons op ops ih =>
    intro t ht
    rw [List.foldl_cons]
    cases op with
    | ins k' h' v =>
      obtain ⟨hwf', hlook'⟩ := hashInsert_ok t k' h' v ht
      obtain ⟨hwf'', hlook''⟩ := ih (t.insert k' h' v) hwf'
      refine ⟨hwf'', fun k h => ?_⟩
      rw [show applyHOp t (HOp.ins k' h' v) = t.insert k' h' v from rfl,
        hlook'' k h, hlook' k h, List.foldl_cons]
      congr 1
      show (if h = h' ∧ k = k' then some v else t.lookup k h) = specStep k h (t.lookup k h) (.ins k' h' v)
      rw [specStep]
      by_cases hc : k' = k ∧ h' = h
      · rw [if_pos hc, if_pos ⟨hc.2.symm, hc.1.symm⟩]
      · rw [if_neg hc, if_neg (fun hc' => hc ⟨hc'.2.symm, hc'.1.symm⟩)]
    | del k' h' =>
      obtain ⟨hwf', hlook'⟩ := hashDelete_ok t k' h' ht
      obtain ⟨hwf'', hlook''⟩ := ih (t.delete k' h').1 hwf'
      refine ⟨hwf'', fun k h => ?_⟩
      rw [show applyHOp t (HOp.del k' h') = (t.delete k' h').1 from rfl,
        hlook'' k h, hlook' k h, List.foldl_cons]
      congr 1
      show (if h = h' ∧ k = k' then none else t.lookup k h) = specStep k h (t.lookup k h) (.del k' h')
      rw [specStep]
      by_cases hc : k' = k ∧ h' = h
      · rw [if_pos hc, if_pos ⟨hc.2.symm, hc.1.symm⟩]
      · rw [if_neg hc, if_neg (fun hc' => hc ⟨hc'.2.symm, hc'.1.symm⟩)]
    | query k' h' =>
      obtain ⟨hwf'', hlook''⟩ := ih t ht
      exact ⟨hwf'', fun k h => by rw [show applyHOp t (HOp.query k' h') = t from rfl,
        hlook'' k h, List.foldl_cons, specStep]⟩

theorem runHOps_wf {V : Type} [DecidableEq V] (ops : List (HOp V)) :
    (runHOps ops).WF := (foldl_applyHOp_ok ops (HashTable.empty V) empty_wf).1

/-!
## `PQTable` (lines 885–934)

The Python heap (`heapq` on a list, external library code) is modelled by
its contract: a priority queue whose pop returns a minimal element under
the entry type's Python-2 `__cmp__`.  Concretely the queue is kept as a
list sorted by `cmp` (stable insertion), so `heappop` is taking the head;
every claim proved below depends only on "pop returns a `cmp`-minimal
element", which any conforming `heapq` satisfies.

`pqinsert` marks the previously-live node of the same key as removed
(the source mutates the one object that was aliased from the table; under
the invariant below that is the unique live node with that key, and
setting `is_removed` on an already-removed node is the identity, so the
key-based map used here coincides with the source's aliased mutation).
-/

structure PQSpec (E : Type) where
  key : E → String
  isRemoved : E → Bool
  setRemoved : E → E
  cmp : E → E → Int

/-- Laws of a `__cmp__`-ordered entry type with an `is_removed` flag not
inspected by the comparison; both instantiations (`OPTCacheEntry`,
`GDSizeEntry`) satisfy them. -/
structure PQLaws {E : Type} (s : PQSpec E) : Prop where
  key_setRemoved : ∀ e, s.key (s.setRemoved e) = s.key e
  isRemoved_setRemoved : ∀ e, s.isRemoved (s.setRemoved e) = true
  cmp_setRemoved_left : ∀ a b, s.cmp (s.setRemoved a) b = s.cmp a b
  cmp_setRemoved_right : ∀ a b, s.cmp a (s.setRemoved b) = s.cmp a b
  cmp_neg : ∀ a b, s.cmp b a = -s.cmp a b
  cmp_trans : ∀ a b c, s.cmp a b ≤ 0 → s.cmp b c ≤ 0 → s.cmp a c ≤ 0

theorem PQLaws.cmp_refl {E : Type} {s : PQSpec E} (hl : PQLaws s) (a : E) :
    s.cmp a a ≤ 0 := by
  have := hl.cmp_neg a a
  omega

/-- `heapq.heappush`, modelled as sorted (stable) insertion. -/
def heappushSorted {E : Type} (cmp : E → E → Int) (x : E) : List E → List E
  | [] => [x]
  | y :: ys => if cmp x y < 0 then x :: y :: ys else y :: heappushSorted cmp x ys

structure PQTable (E : Type) where
  pq : List E
  table : List (String × E)

/-- The tombstone pass of `pqinsert` (lines 899–903). -/
def markRemoved {E : Type} (s : PQSpec E) (k : String) : List E → List E :=
  List.map (fun e => if s.key e = k then s.setRemoved e else e)

/-- `pqinsert` (lines 896–906); also returns the displaced entry, whose
presence/absence the callers assert on. -/
def PQTable.pqinsert {E : Type} (s : PQSpec E) (q : PQTable E) (entry : E) :
    PQTable E × Option E :=
  match dictGet q.table (s.key entry) with
  | none =>
    ({ pq := heappushSorted s.cmp entry q.pq
       table := dictSet q.table (s.key entry) entry }, none)
  | some removed_entry =>
    ({ pq := heappushSorted s.cmp entry (markRemoved s (s.key entry) q.pq)
       table := dictSet q.table (s.key entry) entry }, some removed_entry)

/-- Loop of `pqpop` (lines 908–914): discard tombstoned heads lazily. -/
def pqpopAux {E : Type} (s : PQSpec E) : List E → List (String × E) → Option (E × PQTable E)
  | [], _ => none
  | e :: rest, tbl =>
    if s.isRemoved e then pqpopAux s rest tbl
    else some (e, { pq := rest, table := dictDel tbl (s.key e) })

def PQTable.pqpop {E : Type} (s : PQSpec E) (q : PQTable E) : Option (E × PQTable E) :=
  pqpopAux s q.pq q.table

def PQTable.empty (E : Type) : PQTable E := { pq := [], table := [] }

/-- The representation invariant of `PQTable`: the queue is sorted by
`cmp`; live queue nodes and table entries are in bijection through the
key; keys are unique; and at most one live node exists per key. -/
def PQWF {E : Type} [DecidableEq E] (s : PQSpec E) (q : PQTable E) : Prop :=
  List.Pairwise (fun a b => s.cmp a b ≤ 0) q.pq ∧
  (∀ e ∈ q.pq, s.isRemoved e = false → dictGet q.table (s.key e) = some e) ∧
  (∀ p ∈ q.table, p.2 ∈ q.pq ∧ s.isRemoved p.2 = false ∧ s.key p.2 = p.1) ∧
  (q.table.map Prod.fst).Nodup ∧
  List.Pairwise (fun a b =>
    s.isRemoved a = false → s.isRemoved b = false → s.key a ≠ s.key b) q.pq

theorem mem_of_mem_dictDel {κ α : Type _} [DecidableEq κ] {m : List (κ × α)} {k : κ}
    {p : κ × α} (h : p ∈ dictDel m k) : p ∈ m := by
  induction m with
  | nil => simp [dictDel] at h
  | cons q rest ih =>
    obtain ⟨k₀, v₀⟩ := q
    by_cases h0 : k₀ = k
    · simp only [dictDel, if_pos h0] at h
      exact List.mem_cons_of_mem _ h
    · simp only [dictDel, if_neg h0, List.mem_cons] at h ⊢
      exact h.imp id ih

theorem fst_ne_of_mem_dictDel {κ α : Type _} [DecidableEq κ] {m : List (κ × α)} {k : κ}
    {p : κ × α} (hnd : (m.map Prod.fst).Nodup) (h : p ∈ dictDel m k) : p.1 ≠ k := by
  induction m with
  | nil => simp [dictDel] at h
  | cons q rest ih =>
    obtain ⟨k₀, v₀⟩ := q
    simp only [List.map_cons, List.nodup_cons] at hnd
    by_cases h0 : k₀ = k
    · simp only [dictDel, if_pos h0] at h
      intro hk
      have hmem : p.1 ∈ List.map Prod.fst rest := List.mem_map_of_mem Prod.fst h
      rw [hk, ← h0] at hmem
      exact hnd.1 hmem
    · simp only [dictDel, if_neg h0, List.mem_cons] at h
      rcases h with rfl | h
      · exact h0
      · exact ih hnd.2 h

theorem mem_dictSet {κ α : Type _} [DecidableEq κ] {m : List (κ × α)} {k : κ} {v : α}
    {p : κ × α} (hnd : (m.map Prod.fst).Nodup) (h : p ∈ dictSet m k v) :
    p = (k, v) ∨ (p ∈ m ∧ p.1 ≠ k) := by
  induction m with
  | nil =>
    left
    simpa [dictSet] using h
  | cons q rest ih =>
    obtain ⟨k₀, v₀⟩ := q
    simp only [List.map_cons, List.nodup_cons] at hnd
    by_cases h0 : k₀ = k
    · simp only [dictSet, if_pos h0, List.mem_cons] at h
      rcases h with rfl | h
      · exact Or.inl rfl
      · refine Or.inr ⟨List.mem_cons_of_mem _ h, fun hk => ?_⟩
        have hmem : p.1 ∈ List.map Prod.fst rest := List.mem_map_of_mem Prod.fst h
        rw [hk, ← h0] at hmem
        exact hnd.1 hmem
    · simp only [dictSet, if_neg h0, List.mem_cons] at h
      rcases h with rfl | h
      · exact Or.inr ⟨List.mem_cons_self _ _, h0⟩
      · rcases ih hnd.2 h with hl | ⟨hm, hne⟩
        · exact Or.inl hl
        · exact Or.inr ⟨List.mem_cons_of_mem _ hm, hne⟩

theorem mem_heappushSorted {E : Type} {cmp : E → E → Int} {x w : E} {l : List E} :
    w ∈ heappushSorted cmp x l ↔ w = x ∨ w ∈ l := by
  induction l with
  | nil => simp [heappushSorted]
  | cons y ys ih =>
    by_cases hc : cmp x y < 0
    · rw [heappushSorted, if_pos hc]
      constructor
      · intro hw
        rcases List.mem_cons.mp hw with hwx | hw
        · exact Or.inl hwx
        · exact Or.inr hw
      · rintro (rfl | hw)
        · exact List.mem_cons_self _ _
        · exact List.mem_cons_of_mem _ hw
    · rw [heappushSorted, if_neg hc]
      constructor
      · intro hw
        rcases List.mem_cons.mp hw with hwy | hw
        · exact Or.inr (hwy ▸ List.mem_cons_self _ _)
        · rcases ih.mp hw with hwx | hw
          · exact Or.inl hwx
          · exact Or.inr (List.mem_cons_of_mem _ hw)
      · rintro (rfl | hw)
        · exact List.mem_cons_of_mem _ (ih.mpr (Or.inl rfl))
        · rcases List.mem_cons.mp hw with hwy | hw
          · exact hwy ▸ List.mem_cons_self _ _
          · exact List.mem_cons_of_mem _ (ih.mpr (Or.inr hw))

theorem pairwise_heappushSorted_of {E : Type} {cmp : E → E → Int}
    {R : E → E → Prop} (hsymm : ∀ a b, R a b → R b a) {x : E} {l : List E}
    (hx : ∀ y ∈ l, R x y) (hp : l.Pairwise R) : (heappushSorted cmp x l).Pairwise R := by
  induction l with
  | nil => simp [heappushSorted]
  | cons y ys ih =>
    rw [List.pairwise_cons] at hp
    by_cases hc : cmp x y < 0
    · rw [heappushSorted, if_pos hc, List.pairwise_cons]
      exact ⟨fun w hw => hx w hw, List.pairwise_cons.mpr hp⟩
    · rw [heappushSorted, if_neg hc, List.pairwise_cons]
      refine ⟨fun w hw => ?_, ih (fun z hz => hx z (List.mem_cons_of_mem _ hz)) hp.2⟩
      rcases mem_heappushSorted.mp hw with rfl | hw
      · exact hsymm _ _ (hx y (List.mem_cons_self _ _))
      · exact hp.1 w hw

theorem sorted_heappushSorted {E : Type} {s : PQSpec E} (hl : PQLaws s) {x : E}
    {l : List E} (hp : l.Pairwise (fun a b => s.cmp a b ≤ 0)) :
    (heappushSorted s.cmp x l).Pairwise (fun a b => s.cmp a b ≤ 0) := by
  induction l with
  | nil => simp [heappushSorted]
  | cons y ys ih =>
    rw [List.pairwise_cons] at hp
    by_cases hc : s.cmp x y < 0
    · rw [heappushSorted, if_pos hc, List.pairwise_cons]
      refine ⟨fun w hw => ?_, List.pairwise_cons.mpr hp⟩
      rcases List.mem_cons.mp hw with rfl | hw
      · exact le_of_lt hc
      · exact hl.cmp_trans x y w (le_of_lt hc) (hp.1 w hw)
    · rw [heappushSorted, if_neg hc, List.pairwise_cons]
      refine ⟨fun w hw => ?_, ih hp.2⟩
      rcases mem_heappushSorted.mp hw with hwx | hw
      · rw [hwx]
        have := hl.cmp_neg x y
        omega
      · exact hp.1 w hw

theorem mem_markRemoved {E : Type} {s : PQSpec E} {k : String} {l : List E} {e : E}
    (he : e ∈ markRemoved s k l) :
    ∃ y ∈ l, e = if s.key y = k then s.setRemoved y else y := by
  rw [markRemoved, List.mem_map] at he
  obtain ⟨y, hy, hey⟩ := he
  exact ⟨y, hy, hey.symm⟩

/-- A live entry of the marked queue was a live entry with a different key. -/
theorem live_markRemoved {E : Type} {s : PQSpec E} (hl : PQLaws s) {k : String}
    {l : List E} {e : E} (he : e ∈ markRemoved s k l)
    (hlive : s.isRemoved e = false) : e ∈ l ∧ s.key e ≠ k := by
  obtain ⟨y, hy, hey⟩ := mem_markRemoved he
  by_cases hk : s.key y = k
  · rw [if_pos hk] at hey
    rw [hey, hl.isRemoved_setRemoved] at hlive
    cases hlive
  · rw [if_neg hk] at hey
    subst hey
    exact ⟨hy, hk⟩

theorem sorted_markRemoved {E : Type} {s : PQSpec E} (hl : PQLaws s) {k : String}
    {l : List E} (hp : l.Pairwise (fun a b => s.cmp a b ≤ 0)) :
    (markRemoved s k l).Pairwise (fun a b => s.cmp a b ≤ 0) := by
  rw [markRemoved, List.pairwise_map]
  refine hp.imp_of_mem fun {a b} _ _ hab => ?_
  by_cases ha : s.key a = k <;> by_cases hb : s.key b = k <;>
    simp [ha, hb, hl.cmp_setRemoved_left, hl.cmp_setRemoved_right, hab]

theorem liveKeys_markRemoved {E : Type} {s : PQSpec E} (hl : PQLaws s) {k : String}
    {l : List E}
    (hp : l.Pairwise (fun a b =>
      s.isRemoved a = false → s.isRemoved b = false → s.key a ≠ s.key b)) :
    (markRemoved s k l).Pairwise (fun a b =>
      s.isRemoved a = false → s.isRemoved b = false → s.key a ≠ s.key b) := by
  rw [markRemoved, List.pairwise_map]
  refine hp.imp_of_mem fun {a b} _ _ hab => ?_
  intro hla hlb
  by_cases ha : s.key a = k
  · rw [if_pos ha, hl.isRemoved_setRemoved] at hla
    cases hla
  · rw [if_neg ha] at hla ⊢
    by_cases hb : s.key b = k
    · rw [if_pos hb, hl.isRemoved_setRemoved] at hlb
      cases hlb
    · rw [if_neg hb] at hlb ⊢
      exact hab hla hlb

theorem pqpopAux_none {E : Type} (s : PQSpec E) :
    ∀ (pq : List E) (tbl : List (String × E)), pqpopAux s pq tbl = none →
      ∀ e ∈ pq, s.isRemoved e = true := by
  intro pq
  induction pq with
  | nil =>
    intro tbl _ e he
    simp at he
  | cons x rest ih =>
    intro tbl hnone e he
    rw [pqpopAux] at hnone
    by_cases hx : s.isRemoved x
    · rw [if_pos hx] at hnone
      rcases List.mem_cons.mp he with hex | he
      · rw [hex]
        exact hx
      · exact ih tbl hnone e he
    · rw [if_neg hx] at hnone
      cases hnone

theorem pqpop_aux_spec {E : Type} [DecidableEq E] {s : PQSpec E} (hl : PQLaws s) :
    ∀ (pq : List E) (tbl : List (String × E)),
      List.Pairwise (fun a b => s.cmp a b ≤ 0) pq →
      (∀ e ∈ pq, s.isRemoved e = false → dictGet tbl (s.key e) = some e) →
      (∀ p ∈ tbl, p.2 ∈ pq ∧ s.isRemoved p.2 = false ∧ s.key p.2 = p.1) →
      (tbl.map Prod.fst).Nodup →
      List.Pairwise (fun a b =>
        s.isRemoved a = false → s.isRemoved b = false → s.key a ≠ s.key b) pq →
      ∀ {e : E} {q' : PQTable E}, pqpopAux s pq tbl = some (e, q') →
        s.isRemoved e = false ∧
        dictGet tbl (s.key e) = some e ∧
        (∀ p ∈ tbl, s.cmp e p.2 ≤ 0) ∧
        q'.table = dictDel tbl (s.key e) ∧
        PQWF s q' := by
  intro pq
  induction pq with
  | nil =>
    intro tbl _ _ _ _ _ e q' hpop
    simp [pqpopAux] at hpop
  | cons x rest ih =>
    intro tbl hsort hlc1 hlc2 hnd hkeys e q' hpop
    rw [List.pairwise_cons] at hsort
    rw [List.pairwise_cons] at hkeys
    rw [pqpopAux] at hpop
    by_cases hx : s.isRemoved x
    · rw [if_pos hx] at hpop
      have hxr : s.isRemoved x = true := hx
      refine ih tbl hsort.2
        (fun e' he' hl' => hlc1 e' (List.mem_cons_of_mem _ he') hl')
        (fun p hp => ?_) hnd hkeys.2 hpop
      obtain ⟨hmem, hplive, hpkey⟩ := hlc2 p hp
      rcases List.mem_cons.mp hmem with hpx | hmem
      · rw [hpx, hxr] at hplive
        cases hplive
      · exact ⟨hmem, hplive, hpkey⟩
    · rw [if_neg hx] at hpop
      injection hpop with hpop
      injection hpop with h1 h2
      subst h1
      subst h2
      have hxlive : s.isRemoved x = false := by simpa using hx
      refine ⟨hxlive, hlc1 x (List.mem_cons_self _ _) hxlive, ?_, rfl, ?_⟩
      · intro p hp
        obtain ⟨hmem, hplive, hpkey⟩ := hlc2 p hp
        rcases List.mem_cons.mp hmem with hpx | hmem
        · rw [hpx]
          exact hl.cmp_refl x
        · exact hsort.1 p.2 hmem
      · refine ⟨hsort.2, ?_, ?_, keys_nodup_dictDel tbl _ hnd, hkeys.2⟩
        · intro e' he' hl'
          have hkne : s.key x ≠ s.key e' := hkeys.1 e' he' hxlive hl'
          rw [dictGet_dictDel_ne tbl hkne]
          exact hlc1 e' (List.mem_cons_of_mem _ he') hl'
        · intro p hp
          have hpm : p ∈ tbl := mem_of_mem_dictDel hp
          obtain ⟨hmem, hplive, hpkey⟩ := hlc2 p hpm
          have hpne : p.1 ≠ s.key x := fst_ne_of_mem_dictDel hnd hp
          rcases List.mem_cons.mp hmem with hpx | hmem
          · rw [hpx] at hpkey
            exact absurd hpkey.symm hpne
          · exact ⟨hmem, hplive, hpkey⟩

/-- `pqpop` on a well-formed table returns a live entry, recorded in the
table under its key, that is `cmp`-minimal among all table entries; the
table binding is removed and well-formedness is preserved. -/
theorem pqpop_ok {E : Type} [DecidableEq E] {s : PQSpec E} (hl : PQLaws s)
    {q : PQTable E} (hwf : PQWF s q) {e : E} {q' : PQTable E}
    (hpop : q.pqpop s = some (e, q')) :
    s.isRemoved e = false ∧
    dictGet q.table (s.key e) = some e ∧
    (∀ p ∈ q.table, s.cmp e p.2 ≤ 0) ∧
    q'.table = dictDel q.table (s.key e) ∧
    PQWF s q' :=
  pqpop_aux_spec hl q.pq q.table hwf.1 hwf.2.1 hwf.2.2.1 hwf.2.2.2.1 hwf.2.2.2.2 hpop

/-- `pqpop` returns absent exactly on an empty table. -/
theorem pqpop_none_ok {E : Type} [DecidableEq E] {s : PQSpec E}
    {q : PQTable E} (hwf : PQWF s q) (hpop : q.pqpop s = none) : q.table = [] := by
  have hall := pqpopAux_none s q.pq q.table hpop
  cases hq : q.table with
  | nil => rfl
  | cons p rest =>
    have hp : p ∈ q.table := by
      rw [hq]
      exact List.mem_cons_self _ _
    obtain ⟨hmem, hplive, _⟩ := hwf.2.2.1 p hp
    rw [hall p.2 hmem] at hplive
    cases hplive

theorem pqwf_empty {E : Type} [DecidableEq E] (s : PQSpec E) :
    PQWF s (PQTable.empty E) := by
  refine ⟨List.Pairwise.nil, ?_, ?_, by simp [PQTable.empty], List.Pairwise.nil⟩
  · intro e he
    simp [PQTable.empty] at he
  · intro p hp
    simp [PQTable.empty] at hp

/-- `pqinsert` of a live entry preserves well-formedness. -/
theorem pqinsert_wf {E : Type} [DecidableEq E] {s : PQSpec E} (hl : PQLaws s)
    {q : PQTable E} (hwf : PQWF s q) (entry : E)
    (hent : s.isRemoved entry = false) : PQWF s (q.pqinsert s entry).1 := by
  obtain ⟨hsort, hlc1, hlc2, hnd, hkeys⟩ := hwf
  cases hget : dictGet q.table (s.key entry) with
  | none =>
    simp only [PQTable.pqinsert, hget]
    refine ⟨sorted_heappushSorted hl hsort, ?_, ?_, keys_nodup_dictSet _ _ _ hnd, ?_⟩
    · intro e he hlive
      rcases mem_heappushSorted.mp he with rfl | he
      · rw [dictGet_dictSet, if_pos rfl]
      · have hne : s.key entry ≠ s.key e := by
          intro hk
          have hsome := hlc1 e he hlive
          rw [← hk, hget] at hsome
          cases hsome
        rw [dictGet_dictSet, if_neg hne]
        exact hlc1 e he hlive
    · intro p hp
      rcases mem_dictSet hnd hp with rfl | ⟨hpm, hpne⟩
      · exact ⟨mem_heappushSorted.mpr (Or.inl rfl), hent, rfl⟩
      · obtain ⟨hm, hlv, hk⟩ := hlc2 p hpm
        exact ⟨mem_heappushSorted.mpr (Or.inr hm), hlv, hk⟩
    · refine pairwise_heappushSorted_of
        (fun a b hab hlb hla => (hab hla hlb).symm) (fun y hy hle hly => ?_) hkeys
      intro hk
      have hsome := hlc1 y hy hly
      rw [← hk, hget] at hsome
      cases hsome
  | some removed_entry =>
    simp only [PQTable.pqinsert, hget]
    refine ⟨sorted_heappushSorted hl (sorted_markRemoved hl hsort), ?_, ?_,
      keys_nodup_dictSet _ _ _ hnd, ?_⟩
    · intro e he hlive
      rcases mem_heappushSorted.mp he with rfl | he
      · rw [dictGet_dictSet, if_pos rfl]
      · obtain ⟨hmem, hkne⟩ := live_markRemoved hl he hlive
        rw [dictGet_dictSet, if_neg (fun hk => hkne hk.symm)]
        exact hlc1 e hmem hlive
    · intro p hp
      rcases mem_dictSet hnd hp with rfl | ⟨hpm, hpne⟩
      · exact ⟨mem_heappushSorted.mpr (Or.inl rfl), hent, rfl⟩
      · obtain ⟨hm, hlv, hk⟩ := hlc2 p hpm
        refine ⟨mem_heappushSorted.mpr (Or.inr ?_), hlv, hk⟩
        have himg : (if s.key p.2 = s.key entry then s.setRemoved p.2 else p.2) = p.2 := by
          rw [if_neg (by rw [hk]; exact hpne)]
        rw [markRemoved]
        rw [← himg]
        exact List.mem_map_of_mem _ hm
    · refine pairwise_heappushSorted_of
        (fun a b hab hlb hla => (hab hla hlb).symm) (fun y hy hle hly => ?_)
        (liveKeys_markRemoved hl hkeys)
      obtain ⟨_, hkne⟩ := live_markRemoved hl hy hly
      exact fun hk => hkne hk.symm

/-!
## OPT and GreedyDual-Size priority-queue entries
-/

/-- `OPTCacheEntry` (lines 861–882). -/
structure OPTCacheEntry where
  key : String
  next_access_seq_no : Int
  value_size : Int
  is_removed : Bool
deriving Repr, DecidableEq

/-- `OPTCacheEntry.__cmp__` (lines 874–877): entries with the farthest
next access order first; ties broken by ascending size. -/
def OPTCacheEntry.cmp (self other : OPTCacheEntry) : Int :=
  if other.next_access_seq_no ≠ self.next_access_seq_no then
    other.next_access_seq_no - self.next_access_seq_no
  else self.value_size - other.value_size

def optSpec : PQSpec OPTCacheEntry :=
  { key := OPTCacheEntry.key
    isRemoved := OPTCacheEntry.is_removed
    setRemoved := fun e => { e with is_removed := true }
    cmp := OPTCacheEntry.cmp }

theorem optCmp_le {a b : OPTCacheEntry} :
    OPTCacheEntry.cmp a b ≤ 0 ↔
      b.next_access_seq_no < a.next_access_seq_no ∨
        (b.next_access_seq_no = a.next_access_seq_no ∧ a.value_size ≤ b.value_size) := by
  rw [OPTCacheEntry.cmp]
  by_cases h : b.next_access_seq_no ≠ a.next_access_seq_no
  · rw [if_pos h]
    omega
  · rw [if_neg h]
    omega

theorem optLaws : PQLaws optSpec := by
  refine ⟨fun e => rfl, fun e => rfl, fun a b => rfl, fun a b => rfl, ?_, ?_⟩
  · intro a b
    show OPTCacheEntry.cmp b a = -OPTCacheEntry.cmp a b
    rw [OPTCacheEntry.cmp, OPTCacheEntry.cmp]
    by_cases h : a.next_access_seq_no = b.next_access_seq_no
    · rw [if_neg (by omega), if_neg (by omega)]
      omega
    · rw [if_pos (by omega), if_pos (by omega)]
      omega
  · intro a b c hab hbc
    replace hab : OPTCacheEntry.cmp a b ≤ 0 := hab
    replace hbc : OPTCacheEntry.cmp b c ≤ 0 := hbc
    show OPTCacheEntry.cmp a c ≤ 0
    rw [optCmp_le] at hab hbc ⊢
    omega

/-- `GDSizeEntry` (lines 995–1013).  Priorities are floats in the source
(`L` starts as `0.0`); every value they take is an integer sum of integer
block sizes, represented exactly, so they are modelled as `Int`. -/
structure GDSizeEntry where
  key : String
  value_size : Int
  priority : Int
  is_removed : Bool
deriving Repr, DecidableEq

/-- `GDSizeEntry.__cmp__` (lines 1006–1009): ascending priority, ties by
ascending size. -/
def GDSizeEntry.cmp (self other : GDSizeEntry) : Int :=
  if other.priority ≠ self.priority then self.priority - other.priority
  else self.value_size - other.value_size

def gdsSpec : PQSpec GDSizeEntry :=
  { key := GDSizeEntry.key
    isRemoved := GDSizeEntry.is_removed
    setRemoved := fun e => { e with is_removed := true }
    cmp := GDSizeEntry.cmp }

theorem gdsCmp_le {a b : GDSizeEntry} :
    GDSizeEntry.cmp a b ≤ 0 ↔
      a.priority < b.priority ∨ (a.priority = b.priority ∧ a.value_size ≤ b.value_size) := by
  rw [GDSizeEntry.cmp]
  by_cases h : b.priority ≠ a.priority
  · rw [if_pos h]
    omega
  · rw [if_neg h]
    omega

theorem gdsLaws : PQLaws gdsSpec := by
  refine ⟨fun e => rfl, fun e => rfl, fun a b => rfl, fun a b => rfl, ?_, ?_⟩
  · intro a b
    show GDSizeEntry.cmp b a = -GDSizeEntry.cmp a b
    rw [GDSizeEntry.cmp, GDSizeEntry.cmp]
    by_cases h : a.priority = b.priority
    · rw [if_neg (by omega), if_neg (by omega)]
      omega
    · rw [if_pos (by omega), if_pos (by omega)]
      omega
  · intro a b c hab hbc
    replace hab : GDSizeEntry.cmp a b ≤ 0 := hab
    replace hbc : GDSizeEntry.cmp b c ≤ 0 := hbc
    show GDSizeEntry.cmp a c ≤ 0
    rw [gdsCmp_le] at hab hbc ⊢
    omega

/-!
## `MissRatioStats` (lines 268–293)

The per-time-bucket dictionaries `time_misses`/`time_accesses` and the
`PolicyStats` class are omitted: no claim concerns the timeline
histograms, and they never feed back into cache decisions.  Each cache
also carries a second per-hour instance updated identically (lines
548–549, 594–596), likewise omitted.
-/

structure MissRatioStats where
  num_misses : Nat
  num_accesses : Nat
deriving Repr, DecidableEq

/-- `update_metrics` (lines 276–286), restricted to the two counters. -/
def MissRatioStats.update_metrics (s : MissRatioStats) (is_hit : Bool) : MissRatioStats :=
  { num_accesses := s.num_accesses + 1
    num_misses := if is_hit then s.num_misses else s.num_misses + 1 }

/-- `reset_counter` (lines 288–290). -/
def MissRatioStats.reset_counter (s : MissRatioStats) : MissRatioStats :=
  { num_misses := 0, num_accesses := 0 }

/-- `miss_ratio` (lines 292–293): `float(num_misses) * 100.0 /
float(num_accesses)` with no zero guard; the `ZeroDivisionError` raised
when `num_accesses = 0` is `none`, and the float quotient is modelled as
the exact rational. -/
def MissRatioStats.miss_ratio (s : MissRatioStats) : Option ℚ :=
  if s.num_accesses = 0 then none
  else some ((s.num_misses : ℚ) * 100 / (s.num_accesses : ℚ))

/-!
## The `Cache` base class (lines 537–690)

The subclass virtual methods `lookup`/`evict`/`insert`/`should_admit`
become a `CacheOps` record over the concrete per-cache state `σ`; `Ω` is
the type of per-access oracle input feeding the cache's randomness
(`Unit` for the deterministic classical caches).  The shared fields of
`Cache.__init__` live in `CacheState`.
-/

structure RowKeyState where
  h : Bool
  keys : List (Nat × Bool)
deriving Repr, DecidableEq

structure CacheState (σ : Type) where
  cache_size : Int
  used_size : Int
  miss_ratio_stats : MissRatioStats
  enable_cache_row_key : Bool
  get_id_row_key_map : List (Nat × RowKeyState)
  inner : σ
deriving Repr, DecidableEq

structure CacheOps (σ Ω : Type) where
  lookup : TraceRecord → String → Nat → CacheState σ → CacheState σ × Bool
  evict : Ω → TraceRecord → String → Nat → Int → CacheState σ → Option (CacheState σ)
  insert : TraceRecord → String → Nat → Int → CacheState σ → Option (CacheState σ)
  should_admit : TraceRecord → String → Nat → Int → CacheState σ → Bool

/-- `block_key` (lines 554–555). -/
def blockKey (r : TraceRecord) : String := "b" ++ toString r.block_id

/-- `row_key` (lines 557–558). -/
def rowKey (r : TraceRecord) : String := "g" ++ toString r.key_id

/-- `_update_stats` (lines 594–596), minute-granularity instance. -/
def updateStats {σ : Type} (s : CacheState σ) (is_hit : Bool) : CacheState σ :=
  { s with miss_ratio_stats := s.miss_ratio_stats.update_metrics is_hit }

/-- `Cache._access_kv` (lines 674–690). -/
def accessKV {σ Ω : Type} (ops : CacheOps σ Ω) (ω : Ω) (r : TraceRecord) (key : String)
    (hash : Nat) (value_size : Int) (no_insert : Bool) (s : CacheState σ) :
    Option (CacheState σ × Bool) :=
  if ¬s.used_size ≤ s.cache_size then none  -- assert (line 676)
  else
    match ops.lookup r key hash s with
    | (s1, true) => some (s1, true)
    | (s1, false) =>
      if no_insert ∨ value_size ≤ 0 then some (s1, false)
      else if value_size > s1.cache_size then some (s1, false)
      else
        match ops.evict ω r key hash value_size s1 with
        | none => none
        | some s2 =>
          if ops.should_admit r key hash value_size s2 then
            match ops.insert r key hash value_size s2 with
            | none => none
            | some s3 => some ({ s3 with used_size := s3.used_size + value_size }, false)
          else some (s2, false)

/-- `Cache._access_row` body after the per-`get_id` dict has been
materialized (lines 626–672).  The keyed reads `map[get_id][key_id]` are
always preceded by a write of that key, so the `getD false` default is
never observed. -/
def accessRowBody {σ Ω : Type} (ops : CacheOps σ Ω) (ω₁ ω₂ ω₃ : Ω) (r : TraceRecord)
    (s : CacheState σ) : Option (CacheState σ) :=
  let rk0 := (dictGet s.get_id_row_key_map r.get_id).getD { h := false, keys := [] }
  if rk0.h then some (updateStats s true)
  else
    let step1 : Option (CacheState σ) :=
      if (dictGet rk0.keys r.key_id).isNone then
        match accessKV ops ω₁ r (rowKey r) r.key_id r.kv_size false s with
        | none => none
        | some (s1, is_hit) =>
          let inserted := decide (0 < r.kv_size)
          some { s1 with get_id_row_key_map :=
              (dictSet s1.get_id_row_key_map r.get_id
                { h := is_hit, keys := dictSet rk0.keys r.key_id inserted }) }
      else some s
    match step1 with
    | none => none
    | some s1 =>
      let rk1 := (dictGet s1.get_id_row_key_map r.get_id).getD { h := false, keys := [] }
      if rk1.h then some (updateStats s1 true)
      else
        match accessKV ops ω₂ r (blockKey r) r.block_id r.block_size r.no_insert s1 with
        | none => none
        | some (s2, is_hit2) =>
          let s2 := updateStats s2 is_hit2
          if 0 < r.kv_size ∧ (dictGet rk1.keys r.key_id).getD false = false then
            match accessKV ops ω₃ r (rowKey r) r.key_id r.kv_size false s2 with
            | none => none
            | some (s3, _) =>
              some { s3 with get_id_row_key_map :=
                  (dictSet s3.get_id_row_key_map r.get_id
                    { h := rk1.h, keys := dictSet rk1.keys r.key_id true }) }
          else some s2

/-- `Cache._access_row` (lines 622–672): materialize the per-`get_id`
dict (lines 623–625), then run the body.  Three potential `_access_kv`
calls consume the oracle inputs `ω₁ ω₂ ω₃`. -/
def accessRow {σ Ω : Type} (ops : CacheOps σ Ω) (ω₁ ω₂ ω₃ : Ω) (r : TraceRecord)
    (s0 : CacheState σ) : Option (CacheState σ) :=
  accessRowBody ops ω₁ ω₂ ω₃ r
    (if (dictGet s0.get_id_row_key_map r.get_id).isNone then
      { s0 with get_id_row_key_map :=
          (dictSet s0.get_id_row_key_map r.get_id { h := false, keys := [] }) }
    else s0)

/-- `Cache.access` (lines 598–620). -/
def access {σ Ω : Type} (ops : CacheOps σ Ω) (ω₁ ω₂ ω₃ : Ω) (r : TraceRecord)
    (s : CacheState σ) : Option (CacheState σ) :=
  if ¬s.used_size ≤ s.cache_size then none  -- assert (line 603)
  else if s.enable_cache_row_key ∧ r.caller = 1 ∧ r.key_id ≠ 0 ∧ r.get_id ≠ 0 then
    accessRow ops ω₁ ω₂ ω₃ r s
  else
    match accessKV ops ω₁ r (blockKey r) r.block_id r.block_size r.no_insert s with
    | none => none
    | some (s1, is_hit) => some (updateStats s1 is_hit)

/-- The simulator loop (lines 1432–1509), restricted to the `cache.access`
calls: replay the records in order, feeding each access its oracle data. -/
def runCache {σ Ω : Type} (ops : CacheOps σ Ω) :
    List (TraceRecord × Ω × Ω × Ω) → CacheState σ → Option (CacheState σ)
  | [], s => some s
  | (r, ω₁, ω₂, ω₃) :: rest, s =>
    match access ops ω₁ ω₂ ω₃ r s with
    | none => none
    | some s' => runCache ops rest s'

def initCacheState {σ : Type} (cache_size : Int) (enable_cache_row_key : Bool)
    (inner : σ) : CacheState σ :=
  { cache_size := cache_size
    used_size := 0
    miss_ratio_stats := { num_misses := 0, num_accesses := 0 }
    enable_cache_row_key := enable_cache_row_key
    get_id_row_key_map := []
    inner := inner }

/-!
## `Deque` (lines 1073–1103)

The `OrderedDict` key sequence, oldest first.  `appendleft` deletes any
prior occurrence and re-adds the key, which lands at the newest end;
`pop` takes `popitem(last=False)`, the oldest key.  (The source's `pop`
returns only the key while mutating in place; here it returns the key and
the remaining deque.)
-/

abbrev Deque := List String

def Deque.appendleft (d : Deque) (k : String) : Deque := d.erase k ++ [k]

def Deque.pop (d : Deque) : Option (String × Deque) :=
  match d with
  | [] => none
  | x :: rest => some (x, rest)

def Deque.remove (d : Deque) (k : String) : Deque := d.erase k

/-!
## `LRUCache` (lines 1215–1256)
-/

structure LRUState where
  table : List (String × CacheEntry)
  lru : Deque
deriving Repr, DecidableEq

/-- `LRUCache.lookup` (lines 1230–1236). -/
def lruLookup (r : TraceRecord) (key : String) (hash : Nat) (s : CacheState LRUState) :
    CacheState LRUState × Bool :=
  match dictGet s.inner.table key with
  | none => (s, false)
  | some _ =>
    ({ s with inner := { s.inner with
        lru := Deque.appendleft (Deque.remove s.inner.lru key) key } }, true)

/-- Loop of `LRUCache.evict` (lines 1238–1242); a `pop` of the empty deque
or a missing table binding is the source's `KeyError`. -/
def lruEvictLoop (value_size : Int) : Nat → CacheState LRUState → Option (CacheState LRUState)
  | 0, s =>
    if s.used_size + value_size > s.cache_size then none else some s
  | fuel + 1, s =>
    if s.used_size + value_size > s.cache_size then
      match Deque.pop s.inner.lru with
        | none => none
        | some (evict_key, lru') =>
          match dictGet s.inner.table evict_key with
          | none => none
          | some entry =>
            lruEvictLoop value_size fuel
              { s with
                used_size := s.used_size - entry.value_size
                inner := { table := dictDel s.inner.table evict_key, lru := lru' } }
    else some s

/-- `LRUCache.insert` (lines 1244–1253). -/
def lruInsert (r : TraceRecord) (key : String) (hash : Nat) (value_size : Int)
    (s : CacheState LRUState) : Option (CacheState LRUState) :=
  some { s with inner :=
    { table := dictSet s.inner.table key
        (mkCacheEntry value_size r.cf_id r.level r.block_type 0 r.access_time)
      lru := Deque.appendleft s.inner.lru key } }

def lruOps : CacheOps LRUState Unit :=
  { lookup := lruLookup
    evict := fun _ r key hash v s => lruEvictLoop v (s.inner.lru.length + 1) s
    insert := lruInsert
    should_admit := fun _ _ _ _ _ => true }

/-- `LRUCache.__init__` (lines 1220–1225). -/
def initLRU (cache_size : Int) : CacheState LRUState :=
  initCacheState cache_size false { table := [], lru := [] }

def runLRU (cache_size : Int) (rs : List (TraceRecord × Unit × Unit × Unit)) :
    Option (CacheState LRUState) :=
  runCache lruOps rs (initLRU cache_size)

/-!
## `OPTCache` (lines 937–992)
-/

structure OPTState where
  table : PQTable OPTCacheEntry

/-- `OPTCache.lookup` (lines 960–972): on a hit, re-upsert the entry with
the record's next access; the asserted `pqinsert ... is not None` holds
because the key was just found in the table. -/
def optLookup (r : TraceRecord) (key : String) (hash : Nat) (s : CacheState OPTState) :
    CacheState OPTState × Bool :=
  match dictGet s.inner.table.table key with
  | none => (s, false)
  | some old =>
    ({ s with inner := { table := (s.inner.table.pqinsert optSpec
        ⟨key, r.next_access_seq_no, old.value_size, false⟩).1 } }, true)

/-- Loop of `OPTCache.evict` (lines 974–978); a `pqpop` of an empty table
is the failed `assert evict_entry is not None`. -/
def optEvictLoop (value_size : Int) : Nat → CacheState OPTState → Option (CacheState OPTState)
  | 0, s =>
    if s.used_size + value_size > s.cache_size then none else some s
  | fuel + 1, s =>
    if s.used_size + value_size > s.cache_size then
      match s.inner.table.pqpop optSpec with
        | none => none
        | some (evict_entry, q') =>
          optEvictLoop value_size fuel
            { s with
              used_size := s.used_size - evict_entry.value_size
              inner := { table := q' } }
    else some s

/-- `OPTCache.insert` (lines 980–986); the source asserts that no entry
was displaced, so a pre-existing key is a failure. -/
def optInsert (r : TraceRecord) (key : String) (hash : Nat) (value_size : Int)
    (s : CacheState OPTState) : Option (CacheState OPTState) :=
  match dictGet s.inner.table.table key with
  | some _ => none
  | none =>
    some { s with inner := { table := (s.inner.table.pqinsert optSpec
        ⟨key, r.next_access_seq_no, value_size, false⟩).1 } }

def optOps : CacheOps OPTState Unit :=
  { lookup := optLookup
    evict := fun _ r key hash v s => optEvictLoop v (s.inner.table.pq.length + 1) s
    insert := optInsert
    should_admit := fun _ _ _ _ _ => true }

/-- `OPTCache.__init__` (lines 954–958). -/
def initOPT (cache_size : Int) : CacheState OPTState :=
  initCacheState cache_size false { table := PQTable.empty OPTCacheEntry }

def runOPT (cache_size : Int) (rs : List (TraceRecord × Unit × Unit × Unit)) :
    Option (CacheState OPTState) :=
  runCache optOps rs (initOPT cache_size)

/-!
## `GDSizeCache` (lines 1017–1070)
-/

structure GDSState where
  table : PQTable GDSizeEntry
  L : Int

/-- `GDSizeCache.lookup` (lines 1039–1052). -/
def gdsLookup (r : TraceRecord) (key : String) (hash : Nat) (s : CacheState GDSState) :
    CacheState GDSState × Bool :=
  match dictGet s.inner.table.table key with
  | none => (s, false)
  | some entry =>
    ({ s with inner := { s.inner with table := (s.inner.table.pqinsert gdsSpec
        ⟨key, entry.value_size, s.inner.L + entry.value_size, false⟩).1 } }, true)

/-- Loop of `GDSizeCache.evict` (lines 1054–1059): pop the minimum
priority, record it as the new inflation `L`. -/
def gdsEvictLoop (value_size : Int) : Nat → CacheState GDSState → Option (CacheState GDSState)
  | 0, s =>
    if s.used_size + value_size > s.cache_size then none else some s
  | fuel + 1, s =>
    if s.used_size + value_size > s.cache_size then
      match s.inner.table.pqpop gdsSpec with
        | none => none
        | some (evict_entry, q') =>
          gdsEvictLoop value_size fuel
            { s with
              used_size := s.used_size - evict_entry.value_size
              inner := { table := q', L := evict_entry.priority } }
    else some s

/-- `GDSizeCache.insert` (lines 1061–1067): priority `L + value_size`. -/
def gdsInsert (r : TraceRecord) (key : String) (hash : Nat) (value_size : Int)
    (s : CacheState GDSState) : Option (CacheState GDSState) :=
  match dictGet s.inner.table.table key with
  | some _ => none
  | none =>
    some { s with inner := { s.inner with table := (s.inner.table.pqinsert gdsSpec
        ⟨key, value_size, s.inner.L + value_size, false⟩).1 } }

def gdsOps : CacheOps GDSState Unit :=
  { lookup := gdsLookup
    evict := fun _ r key hash v s => gdsEvictLoop v (s.inner.table.pq.length + 1) s
    insert := gdsInsert
    should_admit := fun _ _ _ _ _ => true }

/-- `GDSizeCache.__init__` (lines 1029–1034): `L` starts at `0.0`. -/
def initGDS (cache_size : Int) : CacheState GDSState :=
  initCacheState cache_size false { table := PQTable.empty GDSizeEntry, L := 0 }

def runGDS (cache_size : Int) (rs : List (TraceRecord × Unit × Unit × Unit)) :
    Option (CacheState GDSState) :=
  runCache gdsOps rs (initGDS cache_size)

/-!
## `ARCCache` (lines 1106–1212)
-/

structure ARCState where
  table : List (String × CacheEntry)
  c : Int
  p : Int
  t1 : Deque
  b1 : Deque
  t2 : Deque
  b2 : Deque
deriving Repr, DecidableEq

/-- The victim selection of one `_replace` iteration (lines 1139–1148):
pop from `T1` into `B1` when `T1` is non-empty and either the key is a
`B2` ghost or `T1` exceeds the target `p`; otherwise from `T2` into `B2`,
falling back to `T1` when `T2` is empty. -/
def arcPick (key : String) (a : ARCState) : Option (String × ARCState) :=
  if a.t1 ≠ [] ∧ (key ∈ a.b2 ∨ a.p < (a.t1.length : Int)) then
    (Deque.pop a.t1).map (fun pr =>
      (pr.1, { a with t1 := pr.2, b1 := Deque.appendleft a.b1 pr.1 }))
  else if a.t2 ≠ [] then
    (Deque.pop a.t2).map (fun pr =>
      (pr.1, { a with t2 := pr.2, b2 := Deque.appendleft a.b2 pr.1 }))
  else
    (Deque.pop a.t1).map (fun pr =>
      (pr.1, { a with t1 := pr.2, b1 := Deque.appendleft a.b1 pr.1 }))

/-- Loop of `ARCCache._replace` (lines 1137–1150).  A pop from an empty
deque leaves `old = None` and the subsequent `self.table[old]` raises, so
that path is a failure. -/
def arcReplaceLoop (key : String) (value_size : Int) :
    Nat → CacheState ARCState → Option (CacheState ARCState)
  | 0, s =>
    if s.used_size + value_size > s.cache_size then none else some s
  | fuel + 1, s =>
    if s.used_size + value_size > s.cache_size then
      match arcPick key s.inner with
      | none => none
      | some (old, a') =>
        match dictGet a'.table old with
        | none => none
        | some entry =>
          arcReplaceLoop key value_size fuel
            { s with
              used_size := s.used_size - entry.value_size
              inner := { a' with table := dictDel a'.table old } }
    else some s

/-- `ARCCache.lookup` (lines 1152–1164). -/
def arcLookup (r : TraceRecord) (key : String) (hash : Nat) (s : CacheState ARCState) :
    CacheState ARCState × Bool :=
  let a := s.inner
  if key ∈ a.t1 then
    ({ s with inner := { a with
        t1 := Deque.remove a.t1 key, t2 := Deque.appendleft a.t2 key } }, true)
  else if key ∈ a.t2 then
    ({ s with inner := { a with
        t2 := Deque.appendleft (Deque.remove a.t2 key) key } }, true)
  else (s, false)

/-- `while len(t1)+len(b1) >= c and b1: b1.pop()` (lines 1187–1188). -/
def arcTrimB1 : Nat → CacheState ARCState → CacheState ARCState
  | 0, s => s
  | fuel + 1, s =>
    let a := s.inner
    if a.c ≤ ((a.t1.length + a.b1.length : Nat) : Int) ∧ a.b1 ≠ [] then
      match Deque.pop a.b1 with
      | none => s
      | some (_, b1') => arcTrimB1 fuel { s with inner := { a with b1 := b1' } }
    else s

/-- `while total >= 2c and b2: b2.pop(); total -= 1` (lines 1190–1193). -/
def arcTrimB2 : Nat → Int → CacheState ARCState → CacheState ARCState
  | 0, _, s => s
  | fuel + 1, total, s =>
    let a := s.inner
    if 2 * a.c ≤ total ∧ a.b2 ≠ [] then
      match Deque.pop a.b2 with
      | none => s
      | some (_, b2') => arcTrimB2 fuel (total - 1) { s with inner := { a with b2 := b2' } }
    else s

/-- `ARCCache.evict` (lines 1166–1196). -/
def arcEvict (ω : Unit) (r : TraceRecord) (key : String) (hash : Nat) (value_size : Int)
    (s : CacheState ARCState) : Option (CacheState ARCState) :=
  let a := s.inner
  if key ∈ a.b1 then
    -- Case II: target `p` grows (ghost hit in B1), integer division per Python 2
    let s := { s with inner := { a with
        p := min a.c (a.p + max (((a.b2.length / a.b1.length : Nat)) : Int) 1) } }
    match arcReplaceLoop key value_size (s.inner.t1.length + s.inner.t2.length + 1) s with
    | none => none
    | some s' =>
      some { s' with inner := { s'.inner with
          b1 := Deque.remove s'.inner.b1 key
          t2 := Deque.appendleft s'.inner.t2 key } }
  else if key ∈ a.b2 then
    -- Case III: target `p` shrinks symmetrically
    let s := { s with inner := { a with
        p := max 0 (a.p - max (((a.b1.length / a.b2.length : Nat)) : Int) 1) } }
    match arcReplaceLoop key value_size (s.inner.t1.length + s.inner.t2.length + 1) s with
    | none => none
    | some s' =>
      some { s' with inner := { s'.inner with
          b2 := Deque.remove s'.inner.b2 key
          t2 := Deque.appendleft s'.inner.t2 key } }
  else
    -- Case IV: fresh key
    match arcReplaceLoop key value_size (s.inner.t1.length + s.inner.t2.length + 1) s with
    | none => none
    | some s' =>
      let s'' := arcTrimB1 (s'.inner.b1.length + 1) s'
      let total : Int := ((s''.inner.t1.length + s''.inner.b1.length +
        s''.inner.t2.length + s''.inner.b2.length : Nat) : Int)
      let s3 := arcTrimB2 (s''.inner.b2.length + 1) total s''
      some { s3 with inner := { s3.inner with t1 := Deque.appendleft s3.inner.t1 key } }

/-- `ARCCache.insert` (lines 1198–1206). -/
def arcInsert (r : TraceRecord) (key : String) (hash : Nat) (value_size : Int)
    (s : CacheState ARCState) : Option (CacheState ARCState) :=
  some { s with inner := { s.inner with
      table := dictSet s.inner.table key
        (mkCacheEntry value_size r.cf_id r.level r.block_type 0 r.access_time) } }

def arcOps : CacheOps ARCState Unit :=
  { lookup := arcLookup
    evict := arcEvict
    insert := arcInsert
    should_admit := fun _ _ _ _ _ => true }

/-- `ARCCache.__init__` (lines 1123–1135).  The synthetic block count is
computed as the source writes it: `cache_size / 16 * 1024`, which by
Python's left-to-right precedence is `(cache_size // 16) * 1024`. -/
def initARC (cache_size : Int) : CacheState ARCState :=
  initCacheState cache_size false
    { table := []
      c := pydiv cache_size 16 * 1024
      p := 0
      t1 := []
      b1 := []
      t2 := []
      b2 := [] }

def runARC (cache_size : Int) (rs : List (TraceRecord × Unit × Unit × Unit)) :
    Option (CacheState ARCState) :=
  runCache arcOps rs (initARC cache_size)

/-!
## Sub-policies (lines 433–534)

`sorted(samples, cmp=...)` (Python 2) is modelled by a stable insertion
sort on the comparator: an element is placed before the first element it
compares `< 0` against.  This agrees with CPython's stable sort whenever
the comparator is consistent, and for every two-element list regardless
of the comparator.
-/

def pyInsertSorted {α : Type} (cmp : α → α → Int) (x : α) : List α → List α
  | [] => [x]
  | y :: ys => if cmp x y < 0 then x :: y :: ys else y :: pyInsertSorted cmp x ys

def pysorted {α : Type} (cmp : α → α → Int) (l : List α) : List α :=
  l.foldl (fun acc x => pyInsertSorted cmp x acc) []

inductive PolicyType where
  | lru
  | mru
  | lfu
  | hb
deriving Repr, DecidableEq

/-- The evicted-keys set of a `Policy` (lines 440–447); the dict values
are always `0`, only key membership matters. -/
structure MLPolicy where
  ptype : PolicyType
  evicted_keys : List String
deriving Repr, DecidableEq

/-- `Policy.evict` (lines 443–444); `max_size` is accepted and ignored by
the source. -/
def Policy.evict (p : MLPolicy) (key : String) (max_size : Nat) : MLPolicy :=
  { p with evicted_keys := List.insert key p.evicted_keys }

/-- `Policy.delete` (lines 446–447). -/
def Policy.delete (p : MLPolicy) (key : String) : MLPolicy :=
  { p with evicted_keys := p.evicted_keys.erase key }

/-- `Policy.generate_reward` (lines 455–458). -/
def Policy.generate_reward (p : MLPolicy) (key : String) : Int :=
  if key ∈ p.evicted_keys then 0 else 1

/-- The duration term of `HyperbolicPolicy.compare` (lines 504–511):
`max(0, (now − insertion_time) / 10⁶) * value_size` with Python-2 floor
division. -/
def hbDuration (now : Int) (e : HashEntry CacheEntry) : Int :=
  max 0 (pydiv (now - e.value.insertion_time) kMicrosInSecond) * e.value.value_size

/-- `HyperbolicPolicy.compare` (lines 503–526).  The float quotients of
the final branch are modelled as exact rationals. -/
def hyperbolicCompare (e1 e2 : HashEntry CacheEntry) (now : Int) : Int :=
  let e1_duration := hbDuration now e1
  let e2_duration := hbDuration now e2
  if e1_duration = e2_duration then e1.value.num_hits - e2.value.num_hits
  else if e1_duration = 0 then 1
  else if e2_duration = 0 then 1
  else
    let diff : ℚ := (e1.value.num_hits : ℚ) / (e1_duration : ℚ) -
      (e2.value.num_hits : ℚ) / (e2_duration : ℚ)
    if diff = 0 then 0 else if 0 < diff then 1 else -1

/-- `prioritize_samples` of each sub-policy (lines 461–531); `now` is the
single element of `auxilliary_info`. -/
def prioritize_samples (pt : PolicyType) (samples : List (HashEntry CacheEntry))
    (now : Int) : List (HashEntry CacheEntry) :=
  match pt with
  | .lru => pysorted
      (fun e1 e2 => e1.value.last_access_number - e2.value.last_access_number) samples
  | .mru => pysorted
      (fun e1 e2 => e2.value.last_access_number - e1.value.last_access_number) samples
  | .lfu => pysorted (fun e1 e2 => e1.value.num_hits - e2.value.num_hits) samples
  | .hb => pysorted (fun e1 e2 => hyperbolicCompare e1 e2 now) samples

/-!
## `MLCache` (lines 693–768)

The concrete bandit (`ThompsonSamplingCache._select_policy`, lines
791–800, or `LinUCBCache._select_policy`, lines 833–853) chooses a
sub-policy index from its random draws; the chosen index is the oracle
field `sel`, quantified over in every theorem, which covers both bandits
(and their numeric bookkeeping never touches the table or `used_size`).
`starts` supplies one `random.randint` bucket start per iteration of the
eviction loop.
-/

structure MLState where
  table : HashTable CacheEntry
  policies : List MLPolicy
deriving Repr, DecidableEq

structure MLOracle where
  sel : Nat
  starts : List Nat
deriving Repr, DecidableEq

def listModify {α : Type} : List α → Nat → (α → α) → List α
  | [], _, _ => []
  | x :: xs, 0, f => f x :: xs
  | x :: xs, n + 1, f => x :: listModify xs n f

/-- `MLCache.lookup` (lines 703–721): a hit re-inserts a freshly
constructed `CacheEntry` carrying the bumped hit count and the current
access number and time. -/
def mlLookup (r : TraceRecord) (key : String) (hash : Nat) (s : CacheState MLState) :
    CacheState MLState × Bool :=
  match s.inner.table.lookup key hash with
  | none => (s, false)
  | some value =>
    ({ s with inner := { s.inner with table := (s.inner.table.insert key hash
        (mkCacheEntry value.value_size value.cf_id value.level value.block_type
          (s.miss_ratio_stats.num_accesses : Int) r.access_time (value.num_hits + 1))) } },
      true)

/-- Inner `for hash_entry in samples` loop of `MLCache.evict` (lines
740–747): delete the sampled entry (asserted present), subtract its size,
record it in the chosen sub-policy's evicted set, stop once there is
room. -/
def evictSamples (sel : Nat) (value_size : Int) :
    List (HashEntry CacheEntry) → CacheState MLState → Option (CacheState MLState)
  | [], s => some s
  | he :: rest, s =>
    match hdel : s.inner.table.delete he.key he.hash with
    | (_, none) => none
    | (t', some _) =>
      let s' : CacheState MLState := { s with
        used_size := s.used_size - he.value.value_size
        inner := { table := t'
                   policies := listModify s.inner.policies sel
                     (fun p => Policy.evict p he.key t'.elements) } }
      if s'.used_size + value_size ≤ s'.cache_size then some s'
      else evictSamples sel value_size rest s'

/-- `while used_size + value_size > cache_size` loop of `MLCache.evict`
(lines 734–747); each iteration consumes one random bucket start. -/
def mlEvictLoop (sel : Nat) (r : TraceRecord) (value_size : Int) :
    List Nat → CacheState MLState → Option (CacheState MLState)
  | [], s =>
    if s.used_size + value_size > s.cache_size then none else some s
  | st :: rest, s =>
    if s.used_size + value_size > s.cache_size then
      let samples := s.inner.table.random_sample kSampleSize st
        let pt := (s.inner.policies.getD sel ⟨.lru, []⟩).ptype
        let samples := prioritize_samples pt samples r.access_time
        match evictSamples sel value_size samples s with
        | none => none
        | some s' => mlEvictLoop sel r value_size rest s'
    else some s

/-- `MLCache.evict` (lines 723–747): select a policy (the oracle `sel`,
asserted in range), remove the incoming key from its evicted set, then
sample-and-evict until the new entry fits.  The `PolicyStats` updates of
lines 730–733 are omitted with the rest of the timeline accounting. -/
def mlEvict (ω : MLOracle) (r : TraceRecord) (key : String) (hash : Nat)
    (value_size : Int) (s : CacheState MLState) : Option (CacheState MLState) :=
  if ω.sel < s.inner.policies.length then
    let s := { s with inner := { s.inner with
        policies := listModify s.inner.policies ω.sel (fun p => Policy.delete p key) } }
    mlEvictLoop ω.sel r value_size ω.starts s
  else none

/-- `MLCache.insert` (lines 749–762), with its capacity assertion. -/
def mlInsert (r : TraceRecord) (key : String) (hash : Nat) (value_size : Int)
    (s : CacheState MLState) : Option (CacheState MLState) :=
  if s.used_size + value_size ≤ s.cache_size then
    some { s with inner := { s.inner with table := (s.inner.table.insert key hash
        (mkCacheEntry value_size r.cf_id r.level r.block_type
          (s.miss_ratio_stats.num_accesses : Int) r.access_time)) } }
  else none

def mlOps : CacheOps MLState MLOracle :=
  { lookup := mlLookup
    evict := mlEvict
    insert := mlInsert
    should_admit := fun _ _ _ _ _ => true }

/-- `MLCache.__init__` (lines 699–701) under `Cache.__init__`. -/
def initML (cache_size : Int) (enable_cache_row_key : Bool)
    (policies : List MLPolicy) : CacheState MLState :=
  initCacheState cache_size enable_cache_row_key
    { table := HashTable.empty CacheEntry, policies := policies }

def runML (cache_size : Int) (enable_cache_row_key : Bool) (policies : List MLPolicy)
    (rs : List (TraceRecord × MLOracle × MLOracle × MLOracle)) :
    Option (CacheState MLState) :=
  runCache mlOps rs (initML cache_size enable_cache_row_key policies)

/-!
## `ThompsonSamplingCache` (lines 771–805)

Per-policy counters start at `(init_a, init_b) = (1, 1)`; the loop of
lines 787–789 reassigns whole lists, leaving `[init_a] * n` and
`[init_b] * n`.  The Beta draws and the argmax of line 792–795 are the
oracle `sel`; Beta distributions have full support on (0,1), so every
index is realizable.
-/

def tsInit (n : Nat) (init_a init_b : Int) : List Int × List Int :=
  (List.replicate n init_a, List.replicate n init_b)

/-- `ThompsonSamplingCache._select_policy` (lines 791–800), given the
selected index: compute the reward from the chosen sub-policy's evicted
set and update that policy's Beta counters. -/
def tsSelectPolicy (policies : List MLPolicy) (asC bsC : List Int) (key : String)
    (sel : Nat) : Nat × List Int × List Int :=
  let reward := Policy.generate_reward (policies.getD sel ⟨.lru, []⟩) key
  (sel, listModify asC sel (· + reward), listModify bsC sel (· + (1 - reward)))

/-!
## The capacity invariant (C1)

Three facts per cache suffice: `lookup` never changes `used_size` or
`cache_size`; a successful `evict` leaves room for the incoming value
(the loop's exit condition); `insert` changes neither field (the
`used_size += value_size` bump lives in `_access_kv`).
-/

structure OpsInv {σ Ω : Type} (ops : CacheOps σ Ω) : Prop where
  lookup_used : ∀ r k h s, (ops.lookup r k h s).1.used_size = s.used_size ∧
    (ops.lookup r k h s).1.cache_size = s.cache_size
  evict_fits : ∀ ω r k h v s s', ops.evict ω r k h v s = some s' →
    s'.used_size + v ≤ s'.cache_size ∧ s'.cache_size = s.cache_size
  insert_used : ∀ r k h v s s', ops.insert r k h v s = some s' →
    s'.used_size = s.used_size ∧ s'.cache_size = s.cache_size

theorem accessKV_inv {σ Ω : Type} {ops : CacheOps σ Ω} (hops : OpsInv ops)
    (ω : Ω) (r : TraceRecord) (key : String) (hash : Nat) (v : Int) (ni : Bool)
    {s : CacheState σ} {p : CacheState σ × Bool}
    (hacc : accessKV ops ω r key hash v ni s = some p) :
    p.1.used_size ≤ p.1.cache_size := by
  rw [accessKV] at hacc
  by_cases hg : ¬s.used_size ≤ s.cache_size
  · rw [if_pos hg] at hacc
    cases hacc
  · rw [if_neg hg] at hacc
    push_neg at hg
    rcases hlp : ops.lookup r key hash s with ⟨s1, b⟩
    have hl1 := (hops.lookup_used r key hash s).1
    have hl2 := (hops.lookup_used r key hash s).2
    rw [hlp] at hacc hl1 hl2
    simp only at hl1 hl2
    cases b with
    | true =>
      simp only at hacc
      injection hacc with hacc
      rw [← hacc]
      simp only
      rw [hl1, hl2]
      exact hg
    | false =>
      simp only at hacc
      by_cases h1 : (ni : Prop) ∨ v ≤ 0
      · rw [if_pos h1] at hacc
        injection hacc with hacc
        rw [← hacc]
        simp only
        rw [hl1, hl2]
        exact hg
      · rw [if_neg h1] at hacc
        push_neg at h1
        by_cases h2 : v > s1.cache_size
        · rw [if_pos h2] at hacc
          injection hacc with hacc
          rw [← hacc]
          simp only
          rw [hl1, hl2]
          exact hg
        · rw [if_neg h2] at hacc
          cases hev : ops.evict ω r key hash v s1 with
          | none =>
            rw [hev] at hacc
            cases hacc
          | some s2 =>
            rw [hev] at hacc
            simp only at hacc
            obtain ⟨hfit, hcs⟩ := hops.evict_fits ω r key hash v s1 s2 hev
            by_cases hadm : ops.should_admit r key hash v s2
            · rw [if_pos hadm] at hacc
              cases hins : ops.insert r key hash v s2 with
              | none =>
                rw [hins] at hacc
                cases hacc
              | some s3 =>
                rw [hins] at hacc
                simp only at hacc
                injection hacc with hacc
                rw [← hacc]
                obtain ⟨hu3, hc3⟩ := hops.insert_used r key hash v s2 s3 hins
                simp only
                rw [hu3, hc3]
                exact hfit
            · rw [if_neg hadm] at hacc
              injection hacc with hacc
              rw [← hacc]
              simp only
              omega

theorem accessRowBody_inv {σ Ω : Type} {ops : CacheOps σ Ω} (hops : OpsInv ops)
    (ω₁ ω₂ ω₃ : Ω) (r : TraceRecord) {s s' : CacheState σ}
    (hs : s.used_size ≤ s.cache_size)
    (hacc : accessRowBody ops ω₁ ω₂ ω₃ r s = some s') :
    s'.used_size ≤ s'.cache_size := by
  rw [accessRowBody] at hacc
  split at hacc
  · injection hacc with hacc
    rw [← hacc]
    exact hs
  · split at hacc
    · -- first sighting of the key: a row-namespace access happened
      split at hacc
      · cases hacc
      · rename_i s1x is_hit heq
        simp only [] at hacc
        split at hacc
        · -- the updated `h` flag short-circuits to a hit
          injection hacc with hacc
          rw [← hacc]
          exact accessKV_inv hops ω₁ r _ r.key_id r.kv_size false heq
        · split at hacc
          · cases hacc
          · rename_i s2x is_hit2 heq2
            split at hacc
            · split at hacc
              · cases hacc
              · rename_i s3x b3 heq3
                injection hacc with hacc
                rw [← hacc]
                exact accessKV_inv hops ω₃ r _ r.key_id r.kv_size false heq3
            · injection hacc with hacc
              rw [← hacc]
              exact accessKV_inv hops ω₂ r _ r.block_id r.block_size r.no_insert heq2
    · -- the key was already seen: step1 is the identity
      dsimp only [] at hacc
      split at hacc
      · injection hacc with hacc
        rw [← hacc]
        exact hs
      · split at hacc
        · cases hacc
        · rename_i s2x is_hit2 heq2
          split at hacc
          · split at hacc
            · cases hacc
            · rename_i s3x b3 heq3
              injection hacc with hacc
              rw [← hacc]
              exact accessKV_inv hops ω₃ r _ r.key_id r.kv_size false heq3
          · injection hacc with hacc
            rw [← hacc]
            exact accessKV_inv hops ω₂ r _ r.block_id r.block_size r.no_insert heq2

theorem accessRow_inv {σ Ω : Type} {ops : CacheOps σ Ω} (hops : OpsInv ops)
    (ω₁ ω₂ ω₃ : Ω) (r : TraceRecord) {s0 s' : CacheState σ}
    (hs : s0.used_size ≤ s0.cache_size)
    (hacc : accessRow ops ω₁ ω₂ ω₃ r s0 = some s') :
    s'.used_size ≤ s'.cache_size := by
  rw [accessRow] at hacc
  refine accessRowBody_inv hops ω₁ ω₂ ω₃ r ?_ hacc
  split <;> exact hs

theorem access_inv {σ Ω : Type} {ops : CacheOps σ Ω} (hops : OpsInv ops)
    (ω₁ ω₂ ω₃ : Ω) (r : TraceRecord) {s s' : CacheState σ}
    (hacc : access ops ω₁ ω₂ ω₃ r s = some s') :
    s'.used_size ≤ s'.cache_size := by
  rw [access] at hacc
  by_cases hg : ¬s.used_size ≤ s.cache_size
  · rw [if_pos hg] at hacc
    cases hacc
  · rw [if_neg hg] at hacc
    push_neg at hg
    split at hacc
    · exact accessRow_inv hops ω₁ ω₂ ω₃ r hg hacc
    · split at hacc
      · cases hacc
      · rename_i s1x is_hit heq
        injection hacc with hacc
        rw [← hacc]
        exact accessKV_inv hops ω₁ r _ r.block_id r.block_size r.no_insert heq

theorem runCache_inv {σ Ω : Type} {ops : CacheOps σ Ω} (hops : OpsInv ops)
    (rs : List (TraceRecord × Ω × Ω × Ω)) :
    ∀ {s s' : CacheState σ}, s.used_size ≤ s.cache_size →
      runCache ops rs s = some s' → s'.used_size ≤ s'.cache_size := by
  induction rs with
  | nil =>
    intro s s' hs hrun
    injection hrun with hrun
    rw [← hrun]
    exact hs
  | cons step rest ih =>
    obtain ⟨r, ω₁, ω₂, ω₃⟩ := step
    intro s s' hs hrun
    rw [runCache] at hrun
    cases hacc : access ops ω₁ ω₂ ω₃ r s with
    | none =>
      rw [hacc] at hrun
      cases hrun
    | some s1 =>
      rw [hacc] at hrun
      exact ih (access_inv hops ω₁ ω₂ ω₃ r hacc) hrun

theorem lruEvictLoop_fits (v : Int) : ∀ (fuel : Nat) (s s' : CacheState LRUState),
    lruEvictLoop v fuel s = some s' →
    s'.used_size + v ≤ s'.cache_size ∧ s'.cache_size = s.cache_size := by
  intro fuel
  induction fuel with
  | zero =>
    intro s s' hl
    rw [lruEvictLoop] at hl
    split at hl
    · cases hl
    · injection hl with hl
      rw [← hl]
      constructor
      · omega
      · rfl
  | succ fuel ih =>
    intro s s' hl
    rw [lruEvictLoop] at hl
    split at hl
    · split at hl
      · cases hl
      · split at hl
        · cases hl
        · obtain ⟨h1, h2⟩ := ih _ s' hl
          exact ⟨h1, h2⟩
    · injection hl with hl
      rw [← hl]
      constructor
      · omega
      · rfl

theorem lruOpsInv : OpsInv lruOps := by
  refine ⟨?_, ?_, ?_⟩
  · intro r k h s
    show ((lruLookup r k h s).1.used_size = s.used_size) ∧
      (lruLookup r k h s).1.cache_size = s.cache_size
    rw [lruLookup]
    cases dictGet s.inner.table k <;> exact ⟨rfl, rfl⟩
  · intro ω r k h v s s' hev
    exact lruEvictLoop_fits v _ s s' hev
  · intro r k h v s s' hins
    injection hins with hins
    rw [← hins]
    exact ⟨rfl, rfl⟩

theorem optEvictLoop_fits (v : Int) : ∀ (fuel : Nat) (s s' : CacheState OPTState),
    optEvictLoop v fuel s = some s' →
    s'.used_size + v ≤ s'.cache_size ∧ s'.cache_size = s.cache_size := by
  intro fuel
  induction fuel with
  | zero =>
    intro s s' hl
    rw [optEvictLoop] at hl
    split at hl
    · cases hl
    · injection hl with hl
      rw [← hl]
      constructor
      · omega
      · rfl
  | succ fuel ih =>
    intro s s' hl
    rw [optEvictLoop] at hl
    split at hl
    · split at hl
      · cases hl
      · obtain ⟨h1, h2⟩ := ih _ s' hl
        exact ⟨h1, h2⟩
    · injection hl with hl
      rw [← hl]
      constructor
      · omega
      · rfl

theorem optOpsInv : OpsInv optOps := by
  refine ⟨?_, ?_, ?_⟩
  · intro r k h s
    show ((optLookup r k h s).1.used_size = s.used_size) ∧
      (optLookup r k h s).1.cache_size = s.cache_size
    rw [optLookup]
    cases dictGet s.inner.table.table k <;> exact ⟨rfl, rfl⟩
  · intro ω r k h v s s' hev
    exact optEvictLoop_fits v _ s s' hev
  · intro r k h v s s' hins
    replace hins : optInsert r k h v s = some s' := hins
    simp only [optInsert] at hins
    split at hins
    · cases hins
    · injection hins with hins
      rw [← hins]
      exact ⟨rfl, rfl⟩

theorem gdsEvictLoop_fits (v : Int) : ∀ (fuel : Nat) (s s' : CacheState GDSState),
    gdsEvictLoop v fuel s = some s' →
    s'.used_size + v ≤ s'.cache_size ∧ s'.cache_size = s.cache_size := by
  intro fuel
  induction fuel with
  | zero =>
    intro s s' hl
    rw [gdsEvictLoop] at hl
    split at hl
    · cases hl
    · injection hl with hl
      rw [← hl]
      constructor
      · omega
      · rfl
  | succ fuel ih =>
    intro s s' hl
    rw [gdsEvictLoop] at hl
    split at hl
    · split at hl
      · cases hl
      · obtain ⟨h1, h2⟩ := ih _ s' hl
        exact ⟨h1, h2⟩
    · injection hl with hl
      rw [← hl]
      constructor
      · omega
      · rfl

theorem gdsOpsInv : OpsInv gdsOps := by
  refine ⟨?_, ?_, ?_⟩
  · intro r k h s
    show ((gdsLookup r k h s).1.used_size = s.used_size) ∧
      (gdsLookup r k h s).1.cache_size = s.cache_size
    rw [gdsLookup]
    cases dictGet s.inner.table.table k <;> exact ⟨rfl, rfl⟩
  · intro ω r k h v s s' hev
    exact gdsEvictLoop_fits v _ s s' hev
  · intro r k h v s s' hins
    replace hins : gdsInsert r k h v s = some s' := hins
    simp only [gdsInsert] at hins
    split at hins
    · cases hins
    · injection hins with hins
      rw [← hins]
      exact ⟨rfl, rfl⟩

theorem arcReplaceLoop_fits (key : String) (v : Int) :
    ∀ (fuel : Nat) (s s' : CacheState ARCState),
    arcReplaceLoop key v fuel s = some s' →
    s'.used_size + v ≤ s'.cache_size ∧ s'.cache_size = s.cache_size := by
  intro fuel
  induction fuel with
  | zero =>
    intro s s' hl
    rw [arcReplaceLoop] at hl
    split at hl
    · cases hl
    · injection hl with hl
      rw [← hl]
      constructor
      · omega
      · rfl
  | succ fuel ih =>
    intro s s' hl
    rw [arcReplaceLoop] at hl
    split at hl
    · split at hl
      · cases hl
      · split at hl
        · cases hl
        · obtain ⟨h1, h2⟩ := ih _ s' hl
          exact ⟨h1, h2⟩
    · injection hl with hl
      rw [← hl]
      constructor
      · omega
      · rfl

theorem arcTrimB1_preserves : ∀ (fuel : Nat) (s : CacheState ARCState),
    (arcTrimB1 fuel s).used_size = s.used_size ∧
    (arcTrimB1 fuel s).cache_size = s.cache_size := by
  intro fuel
  induction fuel with
  | zero => exact fun s => ⟨rfl, rfl⟩
  | succ fuel ih =>
    intro s
    rw [arcTrimB1]
    split
    · split
      · exact ⟨rfl, rfl⟩
      · exact ih _
    · exact ⟨rfl, rfl⟩

theorem arcTrimB2_preserves : ∀ (fuel : Nat) (total : Int) (s : CacheState ARCState),
    (arcTrimB2 fuel total s).used_size = s.used_size ∧
    (arcTrimB2 fuel total s).cache_size = s.cache_size := by
  intro fuel
  induction fuel with
  | zero => exact fun total s => ⟨rfl, rfl⟩
  | succ fuel ih =>
    intro total s
    rw [arcTrimB2]
    split
    · split
      · exact ⟨rfl, rfl⟩
      · exact ih _ _
    · exact ⟨rfl, rfl⟩

theorem arcOpsInv : OpsInv arcOps := by
  refine ⟨?_, ?_, ?_⟩
  · intro r k h s
    show ((arcLookup r k h s).1.used_size = s.used_size) ∧
      (arcLookup r k h s).1.cache_size = s.cache_size
    rw [arcLookup]
    split
    · exact ⟨rfl, rfl⟩
    · split
      · exact ⟨rfl, rfl⟩
      · exact ⟨rfl, rfl⟩
  · intro ω r k h v s s' hev
    replace hev : arcEvict ω r k h v s = some s' := hev
    simp only [arcEvict] at hev
    split at hev
    · split at hev
      · cases hev
      · rename_i s1 heq
        injection hev with hev
        obtain ⟨h1, h2⟩ := arcReplaceLoop_fits k v _ _ s1 heq
        rw [← hev]
        exact ⟨h1, h2⟩
    · split at hev
      · split at hev
        · cases hev
        · rename_i s1 heq
          injection hev with hev
          obtain ⟨h1, h2⟩ := arcReplaceLoop_fits k v _ _ s1 heq
          rw [← hev]
          exact ⟨h1, h2⟩
      · split at hev
        · cases hev
        · rename_i s1 heq
          injection hev with hev
          obtain ⟨h1, h2⟩ := arcReplaceLoop_fits k v _ _ s1 heq
          obtain ⟨hb1u, hb1c⟩ := arcTrimB1_preserves (s1.inner.b1.length + 1) s1
          obtain ⟨hb2u, hb2c⟩ := arcTrimB2_preserves
            ((arcTrimB1 (s1.inner.b1.length + 1) s1).inner.b2.length + 1)
            ((((arcTrimB1 (s1.inner.b1.length + 1) s1).inner.t1.length +
               (arcTrimB1 (s1.inner.b1.length + 1) s1).inner.b1.length +
               (arcTrimB1 (s1.inner.b1.length + 1) s1).inner.t2.length +
               (arcTrimB1 (s1.inner.b1.length + 1) s1).inner.b2.length : Nat) : Int))
            (arcTrimB1 (s1.inner.b1.length + 1) s1)
          rw [← hev]
          dsimp only []
          constructor
          · omega
          · omega
  · intro r k h v s s' hins
    injection hins with hins
    rw [← hins]
    exact ⟨rfl, rfl⟩

theorem evictSamples_cache (sel : Nat) (v : Int) :
    ∀ (samples : List (HashEntry CacheEntry)) (s s' : CacheState MLState),
    evictSamples sel v samples s = some s' → s'.cache_size = s.cache_size := by
  intro samples
  induction samples with
  | nil =>
    intro s s' hl
    injection hl with hl
    rw [← hl]
  | cons he rest ih =>
    intro s s' hl
    rw [evictSamples] at hl
    split at hl
    · cases hl
    · dsimp only [] at hl
      split at hl
      · injection hl with hl
        rw [← hl]
      · obtain h2 := ih _ s' hl
        exact h2

theorem mlEvictLoop_fits (sel : Nat) (r : TraceRecord) (v : Int) :
    ∀ (starts : List Nat) (s s' : CacheState MLState),
    mlEvictLoop sel r v starts s = some s' →
    s'.used_size + v ≤ s'.cache_size ∧ s'.cache_size = s.cache_size := by
  intro starts
  induction starts with
  | nil =>
    intro s s' hl
    rw [mlEvictLoop] at hl
    split at hl
    · cases hl
    · injection hl with hl
      rw [← hl]
      constructor
      · omega
      · rfl
  | cons st rest ih =>
    intro s s' hl
    rw [mlEvictLoop] at hl
    split at hl
    · dsimp only [] at hl
      split at hl
      · cases hl
      · rename_i s1 heq
        obtain ⟨h1, h2⟩ := ih s1 s' hl
        exact ⟨h1, h2.trans (evictSamples_cache sel v _ _ _ heq)⟩
    · injection hl with hl
      rw [← hl]
      constructor
      · omega
      · rfl

theorem mlOpsInv : OpsInv mlOps := by
  refine ⟨?_, ?_, ?_⟩
  · intro r k h s
    show ((mlLookup r k h s).1.used_size = s.used_size) ∧
      (mlLookup r k h s).1.cache_size = s.cache_size
    rw [mlLookup]
    cases s.inner.table.lookup k h <;> exact ⟨rfl, rfl⟩
  · intro ω r k h v s s' hev
    replace hev : mlEvict ω r k h v s = some s' := hev
    simp only [mlEvict] at hev
    split at hev
    · obtain ⟨h1, h2⟩ := mlEvictLoop_fits ω.sel r v ω.starts _ s' hev
      exact ⟨h1, h2⟩
    · cases hev
  · intro r k h v s s' hins
    replace hins : mlInsert r k h v s = some s' := hins
    simp only [mlInsert] at hins
    split at hins
    · injection hins with hins
      rw [← hins]
      exact ⟨rfl, rfl⟩
    · cases hins

/-!
## Shared lemmas and concrete material for the claim statements
-/

instance {E : Type} [DecidableEq E] (s : PQSpec E) (q : PQTable E) :
    Decidable (PQWF s q) := by
  unfold PQWF
  infer_instance

/-- After `pqinsert`, the table maps the entry's key to the entry (both the
fresh-key and the displacement branch end in the same `dictSet`). -/
theorem pqinsert_table_get {E : Type} (s : PQSpec E) (q : PQTable E) (entry : E) :
    dictGet (q.pqinsert s entry).1.table (s.key entry) = some entry := by
  cases hget : dictGet q.table (s.key entry) with
  | none =>
    simp only [PQTable.pqinsert, hget]
    rw [dictGet_dictSet, if_pos rfl]
  | some old =>
    simp only [PQTable.pqinsert, hget]
    rw [dictGet_dictSet, if_pos rfl]

theorem listModify_getD_self {α : Type} (f : α → α) (d : α) :
    ∀ (l : List α) (i : Nat), i < l.length →
      (listModify l i f).getD i d = f (l.getD i d) := by
  intro l
  induction l with
  | nil =>
    intro i hi
    simp at hi
  | cons x xs ih =>
    intro i hi
    cases i with
    | zero => rfl
    | succ n =>
      show (listModify xs n f).getD n d = f (xs.getD n d)
      exact ih n (by simpa using hi)

theorem listModify_getD_ne {α : Type} (f : α → α) (d : α) :
    ∀ (l : List α) (i j : Nat), j ≠ i →
      (listModify l i f).getD j d = l.getD j d := by
  intro l
  induction l with
  | nil =>
    intro i j hne
    rfl
  | cons x xs ih =>
    intro i j hne
    cases i with
    | zero =>
      cases j with
      | zero => exact absurd rfl hne
      | succ m => rfl
    | succ n =>
      cases j with
      | zero => rfl
      | succ m =>
        show (listModify xs n f).getD m d = xs.getD m d
        exact ih n m (fun h => hne (by rw [h]))

/-- The line of `report_stats` (lines 1534–1542) that formats the final miss
ratio: `cache.miss_ratio_stats.miss_ratio()` is called with no guard on
`num_accesses`. -/
def reportStats {σ : Type} (s : CacheState σ) : Option ℚ :=
  s.miss_ratio_stats.miss_ratio

/-- On a guarded miss (`no_insert`, non-positive size or oversized value),
`_access_kv` returns the looked-up state unchanged and reports a miss,
without reaching `evict` or `insert`. -/
theorem accessKV_guarded_miss {σ Ω : Type} (ops : CacheOps σ Ω) (ω : Ω)
    (r : TraceRecord) (key : String) (hash : Nat) (v : Int) (ni : Bool)
    (s : CacheState σ) (hs : s.used_size ≤ s.cache_size)
    (hlook : ops.lookup r key hash s = (s, false))
    (hguard : ni = true ∨ v ≤ 0 ∨ v > s.cache_size) :
    accessKV ops ω r key hash v ni s = some (s, false) := by
  rw [accessKV, if_neg (not_not_intro hs), hlook]
  dsimp only []
  by_cases h1 : (ni : Prop) ∨ v ≤ 0
  · rw [if_pos h1]
  · rw [if_neg h1]
    have h2 : v > s.cache_size := by
      rcases hguard with h | h | h
      · exact absurd (Or.inl h) h1
      · exact absurd (Or.inr h) h1
      · exact h
    rw [if_pos h2]

/-- A synthetic data-block access record (`caller = 2` keeps it off the
row-coalescing path). -/
def recW (bid : Nat) (bsize : Int) (t : Int) : TraceRecord :=
  { access_time := t
    block_id := bid
    block_type := 1
    block_size := bsize
    cf_id := 0
    level := 0
    caller := 2
    no_insert := false
    get_id := 0
    key_id := 0
    kv_size := 0
    next_access_seq_no := 100 }

/-!
## The claims
-/

/-- C1: for every cache type (LRU, OPT, ARC, GDSize and the ML sampling
caches) and every record sequence, `used_size ≤ cache_size` holds in the
state after every successful run of `access`, starting from
`used_size = 0` (runs over every prefix, so the invariant holds at every
observable point). -/
theorem C1_capacity_invariant (cs : Int) (hcs : 0 ≤ cs)
    (rs : List (TraceRecord × Unit × Unit × Unit))
    (erk : Bool) (pols : List MLPolicy)
    (rsM : List (TraceRecord × MLOracle × MLOracle × MLOracle)) :
    (∀ s', runLRU cs rs = some s' → s'.used_size ≤ s'.cache_size) ∧
    (∀ s', runOPT cs rs = some s' → s'.used_size ≤ s'.cache_size) ∧
    (∀ s', runARC cs rs = some s' → s'.used_size ≤ s'.cache_size) ∧
    (∀ s', runGDS cs rs = some s' → s'.used_size ≤ s'.cache_size) ∧
    (∀ s', runML cs erk pols rsM = some s' → s'.used_size ≤ s'.cache_size) :=
  ⟨fun s' h => runCache_inv lruOpsInv rs hcs h,
   fun s' h => runCache_inv optOpsInv rs hcs h,
   fun s' h => runCache_inv arcOpsInv rs hcs h,
   fun s' h => runCache_inv gdsOpsInv rs hcs h,
   fun s' h => runCache_inv mlOpsInv rsM hcs h⟩

theorem C1_capacity_invariant_witness :
    (0 : Int) ≤ 10 ∧
    ((runLRU 10 [(recW 1 4 0, (), (), ())]).getD (initLRU 10)).used_size ≤
      ((runLRU 10 [(recW 1 4 0, (), (), ())]).getD (initLRU 10)).cache_size :=
  ⟨by decide,
   (C1_capacity_invariant 10 (by decide) [(recW 1 4 0, (), (), ())] false [] []).1
      _ rfl⟩

/-- C3: for every interleaving of insert, delete and lookup operations on
the sampling hash table (including the grows and shrinks they trigger),
`lookup (k, h)` returns exactly what the last-writer account of the
operation list says: the value of the most recent `insert (k, h, v)` not
followed by a `delete (k, h)`, absent otherwise. -/
theorem C3_hash_table_roundtrip (ops : List (HOp CacheEntry)) (k : String) (h : Nat) :
    (runHOps ops).lookup k h = specGet ops k h := by
  have h2 := (foldl_applyHOp_ok ops (HashTable.empty CacheEntry) empty_wf).2 k h
  rw [empty_lookup] at h2
  exact h2

/-- C4: the claim says `c = cache_size / 16384`; the source (line 1128)
writes `self.c = cache_size / 16 * 1024`, which by Python-2 left-to-right
evaluation is `(cache_size // 16) * 1024`.  At `cache_size = 16384` the
claimed value is `16384 / 16384 = 1`, but the constructed cache has
`c = 1048576 = 64 * 16384`. -/
theorem C4_arc_block_capacity_bug :
    (initARC 16384).inner.c = 1048576 ∧
    pydiv 16384 16384 = 1 ∧
    (initARC 16384).inner.c ≠ pydiv 16384 16384 ∧
    (initARC 16384).inner.c = 64 * 16384 := by
  refine ⟨rfl, rfl, ?_, rfl⟩
  decide

/-- C2: on a well-formed OPT priority table, a successful `pqpop` returns
a live (never tombstoned) entry, recorded in the table, whose
`next_access_seq_no` is maximum among all entries currently in the table;
the entry is removed from the table, well-formedness is preserved, and
the eviction loop stops exactly when the new entry fits. -/
theorem C2_opt_evicts_max_next_access (q : PQTable OPTCacheEntry)
    (hwf : PQWF optSpec q) (e : OPTCacheEntry) (q' : PQTable OPTCacheEntry)
    (hpop : q.pqpop optSpec = some (e, q')) :
    e.is_removed = false ∧
    dictGet q.table e.key = some e ∧
    (∀ p ∈ q.table, p.2.next_access_seq_no ≤ e.next_access_seq_no) ∧
    q'.table = dictDel q.table e.key ∧
    PQWF optSpec q' ∧
    (∀ (v : Int) (fuel : Nat) (s s' : CacheState OPTState),
      optEvictLoop v fuel s = some s' → s'.used_size + v ≤ s'.cache_size) := by
  obtain ⟨h1, h2, h3, h4, h5⟩ := pqpop_ok optLaws hwf hpop
  refine ⟨h1, h2, ?_, h4, h5, ?_⟩
  · intro p hp
    replace h3 : OPTCacheEntry.cmp e p.2 ≤ 0 := h3 p hp
    rw [optCmp_le] at h3
    omega
  · intro v fuel s s' hl
    exact (optEvictLoop_fits v fuel s s' hl).1

/-- A one-entry OPT priority table for the concrete instantiation. -/
def eO : OPTCacheEntry :=
  { key := "k"
    next_access_seq_no := 42
    value_size := 7
    is_removed := false }

def qO : PQTable OPTCacheEntry := { pq := [eO], table := [("k", eO)] }

def qOd : PQTable OPTCacheEntry := { pq := [], table := [] }

theorem C2_opt_evicts_max_next_access_witness :
    PQWF optSpec qO ∧ qO.pqpop optSpec = some (eO, qOd) ∧
    (eO.is_removed = false ∧
     dictGet qO.table eO.key = some eO ∧
     (∀ p ∈ qO.table, p.2.next_access_seq_no ≤ eO.next_access_seq_no) ∧
     qOd.table = dictDel qO.table eO.key ∧
     PQWF optSpec qOd ∧
     (∀ (v : Int) (fuel : Nat) (s s' : CacheState OPTState),
       optEvictLoop v fuel s = some s' → s'.used_size + v ≤ s'.cache_size)) :=
  ⟨by decide, rfl, C2_opt_evicts_max_next_access qO (by decide) eO qOd rfl⟩

/-- C5 (amended): on an ML-cache hit, the re-inserted entry keeps
`value_size`, `level` and `block_type`, bumps `num_hits` and
`last_access_number` — but both `last_access_time` AND `insertion_time`
are set to the hit's access time, because `MLCache.lookup` rebuilds the
entry through `CacheEntry.__init__`, which stores its single time
argument in both fields (and the literal `0` in `cf_id`).  The claim's
assertion that `insertion_time` is immutable for the entry's lifetime is
false. -/
theorem C5_ml_hit_resets_insertion_time (r : TraceRecord) (key : String)
    (hash : Nat) (s : CacheState MLState) (v : CacheEntry)
    (hwf : s.inner.table.WF)
    (hlook : s.inner.table.lookup key hash = some v) :
    (mlLookup r key hash s).2 = true ∧
    (mlLookup r key hash s).1.inner.table.lookup key hash = some
      { value_size := v.value_size
        last_access_number := (s.miss_ratio_stats.num_accesses : Int)
        num_hits := v.num_hits + 1
        cf_id := 0
        level := v.level
        block_type := v.block_type
        last_access_time := r.access_time
        insertion_time := r.access_time } := by
  simp only [mlLookup, hlook]
  refine ⟨trivial, ?_⟩
  obtain ⟨hwf2, hlook2⟩ := hashInsert_ok s.inner.table key hash
    (mkCacheEntry v.value_size v.cf_id v.level v.block_type
      (s.miss_ratio_stats.num_accesses : Int) r.access_time (v.num_hits + 1)) hwf
  have h := hlook2 key hash
  rw [if_pos ⟨rfl, rfl⟩] at h
  exact h

/-- A one-entry ML cache state: the entry for `"b1"` was inserted at time
`5`. -/
def s5 : CacheState MLState :=
  { cache_size := 10
    used_size := 4
    miss_ratio_stats := { num_misses := 0, num_accesses := 0 }
    enable_cache_row_key := false
    get_id_row_key_map := []
    inner := { table := (HashTable.empty CacheEntry).insert "b1" 1
                 (mkCacheEntry 4 0 0 1 0 5)
               policies := [{ ptype := .lru, evicted_keys := [] }] } }

/-- The record that hits `"b1"` at time `7`. -/
def r5 : TraceRecord := recW 1 4 7

/-- C5 counterexample: the entry was inserted with `insertion_time = 5`;
after a hit at access time `7` the stored entry has `insertion_time = 7`,
so `insertion_time` did not survive the hit. -/
theorem C5_insertion_time_reset_counterexample :
    ((s5.inner.table.lookup "b1" 1).map (fun e => e.insertion_time) = some 5) ∧
    (((mlLookup r5 "b1" 1 s5).1.inner.table.lookup "b1" 1).map
        (fun e => e.insertion_time) = some 7) ∧
    (mlLookup r5 "b1" 1 s5).2 = true := by decide

theorem C5_ml_hit_resets_insertion_time_witness :
    s5.inner.table.WF ∧
    s5.inner.table.lookup "b1" 1 = some (mkCacheEntry 4 0 0 1 0 5) ∧
    ((mlLookup r5 "b1" 1 s5).2 = true ∧
     (mlLookup r5 "b1" 1 s5).1.inner.table.lookup "b1" 1 = some
       { value_size := (mkCacheEntry 4 0 0 1 0 5).value_size
         last_access_number := (s5.miss_ratio_stats.num_accesses : Int)
         num_hits := (mkCacheEntry 4 0 0 1 0 5).num_hits + 1
         cf_id := 0
         level := (mkCacheEntry 4 0 0 1 0 5).level
         block_type := (mkCacheEntry 4 0 0 1 0 5).block_type
         last_access_time := r5.access_time
         insertion_time := r5.access_time }) :=
  ⟨by decide, by decide,
   C5_ml_hit_resets_insertion_time r5 "b1" 1 s5 (mkCacheEntry 4 0 0 1 0 5)
     (by decide) (by decide)⟩

/-- C6 (amended): in `HyperbolicPolicy.compare`, whenever the two
durations (`max(0,(now−insertion_time)/10⁶)·size`) differ and EITHER of
them is zero, the comparator returns `1` — so a zero-denominator sample is
never ordered before a nonzero one by the comparison; in particular in a
two-element sample list whose second entry has zero duration, the sort
leaves the zero-denominator entry last.  The claim's assertion that
zero-denominator samples come first (are evicted first) is false; only
the `compare(e1, e2) = 1` when `e1` has zero duration half behaves as the
claim says, and the symmetric case inverts it. -/
theorem C6_hyperbolic_zero_denominator (e1 e2 : HashEntry CacheEntry) (now : Int)
    (hne : hbDuration now e1 ≠ hbDuration now e2) :
    (hbDuration now e1 = 0 → hyperbolicCompare e1 e2 now = 1) ∧
    (hbDuration now e2 = 0 → hyperbolicCompare e1 e2 now = 1) ∧
    (hbDuration now e2 = 0 →
      prioritize_samples .hb [e1, e2] now = [e1, e2]) := by
  refine ⟨?_, ?_, ?_⟩
  · intro h0
    simp only [hyperbolicCompare]
    rw [if_neg hne, if_pos h0]
  · intro h0
    simp only [hyperbolicCompare]
    rw [if_neg hne, if_neg (fun hx => hne (hx.trans h0.symm)), if_pos h0]
  · intro h0
    have hc : hyperbolicCompare e2 e1 now = 1 := by
      simp only [hyperbolicCompare]
      rw [if_neg (fun hx => hne hx.symm), if_pos h0]
    show pysorted (fun a b => hyperbolicCompare a b now) [e1, e2] = [e1, e2]
    simp only [pysorted, List.foldl_cons, List.foldl_nil, pyInsertSorted, hc]
    norm_num

/-- A sample with nonzero duration at `now = 2000000`: inserted at time 0,
size 1, 5 hits. -/
def eNZ6 : HashEntry CacheEntry :=
  { key := "a", hash := 1, value := mkCacheEntry 1 0 0 1 0 0 5 }

/-- A zero-duration sample at `now = 2000000`: inserted at `now` itself. -/
def eZ6 : HashEntry CacheEntry :=
  { key := "z", hash := 2, value := mkCacheEntry 1 0 0 1 0 2000000 }

/-- C6 counterexample: the zero-denominator sample `eZ6` stays AFTER the
nonzero-denominator sample `eNZ6` in the prioritized order, so it is not
evicted first as the claim requires. -/
theorem C6_zero_denominator_counterexample :
    prioritize_samples .hb [eNZ6, eZ6] 2000000 = [eNZ6, eZ6] ∧
    hbDuration 2000000 eZ6 = 0 ∧
    hbDuration 2000000 eNZ6 ≠ 0 := by decide

theorem C6_hyperbolic_zero_denominator_witness :
    hbDuration 2000000 eNZ6 ≠ hbDuration 2000000 eZ6 ∧
    ((hbDuration 2000000 eNZ6 = 0 → hyperbolicCompare eNZ6 eZ6 2000000 = 1) ∧
     (hbDuration 2000000 eZ6 = 0 → hyperbolicCompare eNZ6 eZ6 2000000 = 1) ∧
     (hbDuration 2000000 eZ6 = 0 →
       prioritize_samples .hb [eNZ6, eZ6] 2000000 = [eNZ6, eZ6])) :=
  ⟨by decide, C6_hyperbolic_zero_denominator eNZ6 eZ6 2000000 (by decide)⟩

/-- C7: for every cache, an access that misses while the record has
`no_insert`, or `value_size ≤ 0`, or `value_size > cache_size`, returns a
miss with the cache state (table, `used_size`, everything) exactly as it
was; evict/insert are behind the negation of these guards in
`_access_kv`. -/
theorem C7_guarded_miss_frame (r : TraceRecord) (key : String) (hash : Nat)
    (v : Int) (ni : Bool) (ωM : MLOracle) :
    (∀ s : CacheState LRUState, s.used_size ≤ s.cache_size →
      dictGet s.inner.table key = none →
      (ni = true ∨ v ≤ 0 ∨ v > s.cache_size) →
      accessKV lruOps () r key hash v ni s = some (s, false)) ∧
    (∀ s : CacheState OPTState, s.used_size ≤ s.cache_size →
      dictGet s.inner.table.table key = none →
      (ni = true ∨ v ≤ 0 ∨ v > s.cache_size) →
      accessKV optOps () r key hash v ni s = some (s, false)) ∧
    (∀ s : CacheState ARCState, s.used_size ≤ s.cache_size →
      key ∉ s.inner.t1 → key ∉ s.inner.t2 →
      (ni = true ∨ v ≤ 0 ∨ v > s.cache_size) →
      accessKV arcOps () r key hash v ni s = some (s, false)) ∧
    (∀ s : CacheState GDSState, s.used_size ≤ s.cache_size →
      dictGet s.inner.table.table key = none →
      (ni = true ∨ v ≤ 0 ∨ v > s.cache_size) →
      accessKV gdsOps () r key hash v ni s = some (s, false)) ∧
    (∀ s : CacheState MLState, s.used_size ≤ s.cache_size →
      s.inner.table.lookup key hash = none →
      (ni = true ∨ v ≤ 0 ∨ v > s.cache_size) →
      accessKV mlOps ωM r key hash v ni s = some (s, false)) := by
  refine ⟨?_, ?_, ?_, ?_, ?_⟩
  · intro s hs hm hg
    refine accessKV_guarded_miss lruOps () r key hash v ni s hs ?_ hg
    show lruLookup r key hash s = (s, false)
    simp only [lruLookup, hm]
  · intro s hs hm hg
    refine accessKV_guarded_miss optOps () r key hash v ni s hs ?_ hg
    show optLookup r key hash s = (s, false)
    simp only [optLookup, hm]
  · intro s hs h1 h2 hg
    refine accessKV_guarded_miss arcOps () r key hash v ni s hs ?_ hg
    show arcLookup r key hash s = (s, false)
    simp only [arcLookup]
    rw [if_neg h1, if_neg h2]
  · intro s hs hm hg
    refine accessKV_guarded_miss gdsOps () r key hash v ni s hs ?_ hg
    show gdsLookup r key hash s = (s, false)
    simp only [gdsLookup, hm]
  · intro s hs hm hg
    refine accessKV_guarded_miss mlOps ωM r key hash v ni s hs ?_ hg
    show mlLookup r key hash s = (s, false)
    simp only [mlLookup, hm]

theorem C7_guarded_miss_frame_witness :
    (initLRU 10).used_size ≤ (initLRU 10).cache_size ∧
    dictGet (initLRU 10).inner.table "b1" = none ∧
    (true = true ∨ (4 : Int) ≤ 0 ∨ (4 : Int) > (initLRU 10).cache_size) ∧
    accessKV lruOps () (recW 1 4 0) "b1" 1 4 true (initLRU 10) =
      some (initLRU 10, false) :=
  ⟨by decide, rfl, Or.inl rfl,
   (C7_guarded_miss_frame (recW 1 4 0) "b1" 1 4 true { sel := 0, starts := [] }).1
     (initLRU 10) (by decide) rfl (Or.inl rfl)⟩

/-- C8: Thompson sampling selects exactly one sub-policy index; the
selected policy's Beta counters become `a + r` and `b + (1 - r)` with
`r = 0` when the incoming key is in that policy's evicted set, `1`
otherwise; all other counters are untouched; and `__init__` starts every
counter pair at `(1, 1)`. -/
theorem C8_thompson_counters (policies : List MLPolicy) (asC bsC : List Int)
    (key : String) (sel : Nat) (n : Nat)
    (ha : sel < asC.length) (hb : sel < bsC.length) :
    tsInit n 1 1 = (List.replicate n 1, List.replicate n 1) ∧
    (tsSelectPolicy policies asC bsC key sel).1 = sel ∧
    (∀ p : MLPolicy, Policy.generate_reward p key =
      if key ∈ p.evicted_keys then 0 else 1) ∧
    (tsSelectPolicy policies asC bsC key sel).2.1.getD sel 0 =
      asC.getD sel 0 +
        Policy.generate_reward (policies.getD sel { ptype := .lru, evicted_keys := [] }) key ∧
    (tsSelectPolicy policies asC bsC key sel).2.2.getD sel 0 =
      bsC.getD sel 0 +
        (1 - Policy.generate_reward (policies.getD sel { ptype := .lru, evicted_keys := [] }) key) ∧
    ∀ j, j ≠ sel →
      (tsSelectPolicy policies asC bsC key sel).2.1.getD j 0 = asC.getD j 0 ∧
      (tsSelectPolicy policies asC bsC key sel).2.2.getD j 0 = bsC.getD j 0 := by
  refine ⟨rfl, rfl, fun p => rfl, ?_, ?_, ?_⟩
  · exact listModify_getD_self
      (fun x => x + Policy.generate_reward
        (policies.getD sel { ptype := .lru, evicted_keys := [] }) key) 0 asC sel ha
  · exact listModify_getD_self
      (fun x => x + (1 - Policy.generate_reward
        (policies.getD sel { ptype := .lru, evicted_keys := [] }) key)) 0 bsC sel hb
  · intro j hj
    exact ⟨listModify_getD_ne _ 0 asC sel j hj, listModify_getD_ne _ 0 bsC sel j hj⟩

theorem C8_thompson_counters_witness :
    0 < [(1 : Int), 1].length ∧
    (tsInit 2 1 1 = (List.replicate 2 1, List.replicate 2 1) ∧
     (tsSelectPolicy [{ ptype := .lru, evicted_keys := ["k"] },
        { ptype := .lfu, evicted_keys := [] }] [1, 1] [1, 1] "k" 0).1 = 0 ∧
     (∀ p : MLPolicy, Policy.generate_reward p "k" =
       if "k" ∈ p.evicted_keys then 0 else 1) ∧
     (tsSelectPolicy [{ ptype := .lru, evicted_keys := ["k"] },
        { ptype := .lfu, evicted_keys := [] }] [1, 1] [1, 1] "k" 0).2.1.getD 0 0 =
       ([(1 : Int), 1]).getD 0 0 +
         Policy.generate_reward
           (([{ ptype := .lru, evicted_keys := ["k"] },
              { ptype := .lfu, evicted_keys := [] }] :
                List MLPolicy).getD 0 { ptype := .lru, evicted_keys := [] }) "k" ∧
     (tsSelectPolicy [{ ptype := .lru, evicted_keys := ["k"] },
        { ptype := .lfu, evicted_keys := [] }] [1, 1] [1, 1] "k" 0).2.2.getD 0 0 =
       ([(1 : Int), 1]).getD 0 0 +
         (1 - Policy.generate_reward
           (([{ ptype := .lru, evicted_keys := ["k"] },
              { ptype := .lfu, evicted_keys := [] }] :
                List MLPolicy).getD 0 { ptype := .lru, evicted_keys := [] }) "k") ∧
     ∀ j, j ≠ 0 →
       (tsSelectPolicy [{ ptype := .lru, evicted_keys := ["k"] },
          { ptype := .lfu, evicted_keys := [] }] [1, 1] [1, 1] "k" 0).2.1.getD j 0 =
         ([(1 : Int), 1]).getD j 0 ∧
       (tsSelectPolicy [{ ptype := .lru, evicted_keys := ["k"] },
          { ptype := .lfu, evicted_keys := [] }] [1, 1] [1, 1] "k" 0).2.2.getD j 0 =
         ([(1 : Int), 1]).getD j 0) :=
  ⟨by decide,
   C8_thompson_counters [{ ptype := .lru, evicted_keys := ["k"] },
     { ptype := .lfu, evicted_keys := [] }] [1, 1] [1, 1] "k" 0 2
     (by decide) (by decide)⟩

/-- The S3 scenario of the spec: cache size 10, insert X (block 1, size
8), insert Y (block 2, size 2), then access Z (block 3, size 5). -/
def gdsScenario : List (TraceRecord × Unit × Unit × Unit) :=
  [(recW 1 8 1, (), (), ()), (recW 2 2 2, (), (), ()), (recW 3 5 3, (), (), ())]

/-- C9: GDSize assigns priority `L + value_size` on insert and on every
hit; a successful `pqpop` returns a live entry of minimum priority; one
eviction step pops it and sets `L` to the victim's priority; and the
concrete scenario (size 10: X(8), Y(2), miss Z(5)) ends with only Z
cached at priority 13, `L = 8`, `used_size = 5`, having held
`used_size = 10` after the first two inserts. -/
theorem C9_gds_priorities (r : TraceRecord) (key : String) (hash : Nat)
    (v : Int) (s : CacheState GDSState) (entry : GDSizeEntry)
    (q : PQTable GDSizeEntry) (hwf : PQWF gdsSpec q)
    (ev : GDSizeEntry) (q' : PQTable GDSizeEntry)
    (hpop : q.pqpop gdsSpec = some (ev, q')) :
    (dictGet s.inner.table.table key = none →
      (gdsInsert r key hash v s).map (fun s1 => dictGet s1.inner.table.table key) =
        some (some (GDSizeEntry.mk key v (s.inner.L + v) false))) ∧
    (dictGet s.inner.table.table key = some entry →
      (gdsLookup r key hash s).2 = true ∧
      dictGet (gdsLookup r key hash s).1.inner.table.table key =
        some (GDSizeEntry.mk key entry.value_size (s.inner.L + entry.value_size) false)) ∧
    (ev.is_removed = false ∧ (∀ p ∈ q.table, ev.priority ≤ p.2.priority) ∧
      PQWF gdsSpec q') ∧
    (∀ (fuel : Nat) (st : CacheState GDSState), st.inner.table = q →
      st.used_size + v > st.cache_size →
      gdsEvictLoop v (fuel + 1) st =
        gdsEvictLoop v fuel
          { st with
            used_size := st.used_size - ev.value_size
            inner := { table := q', L := ev.priority } }) ∧
    ((runGDS 10 gdsScenario).map (fun sF => (sF.used_size, sF.inner.L,
        dictGet sF.inner.table.table "b1", dictGet sF.inner.table.table "b2",
        dictGet sF.inner.table.table "b3")) =
      some (5, 8, none, none, some (GDSizeEntry.mk "b3" 5 13 false))) ∧
    ((runGDS 10 (gdsScenario.take 2)).map (fun sF => sF.used_size) = some 10) := by
  refine ⟨?_, ?_, ?_, ?_, by decide, by decide⟩
  · intro hmiss
    simp only [gdsInsert, hmiss]
    dsimp only [Option.map]
    exact congrArg some (pqinsert_table_get gdsSpec s.inner.table
      (GDSizeEntry.mk key v (s.inner.L + v) false))
  · intro hhit
    constructor
    · simp only [gdsLookup, hhit]
    · simp only [gdsLookup, hhit]
      exact pqinsert_table_get gdsSpec s.inner.table
        (GDSizeEntry.mk key entry.value_size (s.inner.L + entry.value_size) false)
  · obtain ⟨h1, h2, h3, h4, h5⟩ := pqpop_ok gdsLaws hwf hpop
    refine ⟨h1, ?_, h5⟩
    intro p hp
    replace h3 : GDSizeEntry.cmp ev p.2 ≤ 0 := h3 p hp
    rw [gdsCmp_le] at h3
    omega
  · intro fuel st hq hover
    rw [gdsEvictLoop, if_pos hover, hq, hpop]

/-- A one-entry GDS priority table for the concrete instantiation. -/
def egG : GDSizeEntry :=
  { key := "k"
    value_size := 2
    priority := 2
    is_removed := false }

def qG : PQTable GDSizeEntry := { pq := [egG], table := [("k", egG)] }

def qGd : PQTable GDSizeEntry := { pq := [], table := [] }

theorem C9_gds_priorities_witness :
    PQWF gdsSpec qG ∧ qG.pqpop gdsSpec = some (egG, qGd) ∧
    (egG.is_removed = false ∧ (∀ p ∈ qG.table, egG.priority ≤ p.2.priority) ∧
      PQWF gdsSpec qGd) :=
  ⟨by decide, rfl,
   (C9_gds_priorities (recW 1 8 1) "k" 1 2 (initGDS 10) egG qG (by decide)
      egG qGd rfl).2.2.1⟩

/-- C10: `miss_ratio` divides by `num_accesses` with no guard: it is
defined (`some`) exactly when `num_accesses > 0`, where it returns
`100 * num_misses / num_accesses`; with `num_accesses = 0` — as after
construction or right after `reset_counter` — the division raises
(`none`); and the final reporting path (`report_stats`) formats
`miss_ratio()` unconditionally, e.g. on a freshly constructed cache. -/
theorem C10_miss_ratio_requires_accesses (s : MissRatioStats) (cs : Int) :
    (s.num_accesses ≠ 0 →
      s.miss_ratio = some ((s.num_misses : ℚ) * 100 / (s.num_accesses : ℚ))) ∧
    (s.num_accesses = 0 → s.miss_ratio = none) ∧
    s.reset_counter.miss_ratio = none ∧
    reportStats (initLRU cs) = none := by
  refine ⟨?_, ?_, rfl, rfl⟩
  · intro h
    rw [MissRatioStats.miss_ratio, if_neg h]
  · intro h
    rw [MissRatioStats.miss_ratio, if_pos h]

theorem C10_miss_ratio_requires_accesses_witness :
    ((MissRatioStats.mk 3 4).num_accesses ≠ 0 ∧
      (MissRatioStats.mk 3 4).miss_ratio =
        some (((MissRatioStats.mk 3 4).num_misses : ℚ) * 100 /
          ((MissRatioStats.mk 3 4).num_accesses : ℚ))) ∧
    ((MissRatioStats.mk 3 0).num_accesses = 0 ∧
      (MissRatioStats.mk 3 0).miss_ratio = none) :=
  ⟨⟨by decide, (C10_miss_ratio_requires_accesses (MissRatioStats.mk 3 4) 10).1
      (by decide)⟩,
   ⟨rfl, (C10_miss_ratio_requires_accesses (MissRatioStats.mk 3 0) 10).2.1 rfl⟩⟩

end BlockCachePySim
